import Mathlib

/-
Verification of the maskQL flattening codec (src/flatten.js, src/types.js)
and its dirty-tracking write-back session (src/index.js).

The JavaScript value universe relevant to the library is modelled by the
inductive type `JSValue`.  JavaScript objects are modelled as
insertion-ordered association lists (`Obj`), which is faithful to the
enumeration order of string-keyed properties.  Model restrictions, each noted
where it matters:
  - numbers are modelled as integers (`Int`); the library's own examples and
    the round-trip claims only involve integral numbers;
  - object/array reference identity is not representable, so the strict
    equality `===` used by `set` is modelled by `strictEq`, which is value
    equality on primitives and `false` on two object/array/date values
    (two separately produced references);
  - `JSON.parse` is modelled by `jsonParse`, a recursive-descent parser;
    non-integral numeric literals make it fail instead of producing a float.
-/

inductive JSValue where
  | vNull
  | vUndefined
  | vBool (b : Bool)
  | vNum (n : Int)
  | vStr (s : String)
  | vDate (iso : String)
  | vArr (xs : List JSValue)
  | vObj (fields : List (String × JSValue))

/- Structural (deep) equality test on modelled JS values. -/
mutual

def beqV : JSValue → JSValue → Bool
  | .vNull, .vNull => true
  | .vUndefined, .vUndefined => true
  | .vBool a, .vBool b => a = b
  | .vNum a, .vNum b => a = b
  | .vStr a, .vStr b => a = b
  | .vDate a, .vDate b => a = b
  | .vArr xs, .vArr ys => beqL xs ys
  | .vObj fs, .vObj gs => beqF fs gs
  | _, _ => false

def beqL : List JSValue → List JSValue → Bool
  | [], [] => true
  | x :: xs, y :: ys => beqV x y && beqL xs ys
  | _, _ => false

def beqF : List (String × JSValue) → List (String × JSValue) → Bool
  | [], [] => true
  | (k, v) :: fs, (l, w) :: gs => k = l && beqV v w && beqF fs gs
  | _, _ => false

end

/-- A JavaScript object: insertion-ordered association list of properties. -/
abbrev Obj := List (String × JSValue)

/-- Property read `o[key]`: `none` models `undefined` (missing property). -/
def objGet : Obj → String → Option JSValue
  | [], _ => none
  | (k, v) :: rest, key => if k = key then some v else objGet rest key

/-- Property write `o[key] = v`: updates in place if the key exists (JS keeps
the original insertion position), otherwise appends. -/
def objSet : Obj → String → JSValue → Obj
  | [], key, v => [(key, v)]
  | (k, w) :: rest, key, v =>
    if k = key then (k, v) :: rest else (k, w) :: objSet rest key v

/-- Property removal, `delete o[key]`. -/
def objRemove : Obj → String → Obj
  | [], _ => []
  | (k, v) :: rest, key => if k = key then objRemove rest key else (k, v) :: objRemove rest key

/-- Keys of an object in enumeration order (`Object.keys`). -/
def keysOf (o : Obj) : List String := o.map Prod.fst

/-- Read with JS semantics: a missing property reads as `undefined`. -/
def lookupD (o : Obj) (key : String) : JSValue := (objGet o key).getD .vUndefined

/-- Fold a list of entries into an object with repeated property writes. -/
def objSetAll (o : Obj) (entries : Obj) : Obj :=
  entries.foldl (fun acc e => objSet acc e.1 e.2) o

/-- Duplicate-freedom of an object's key list (an invariant of real JS
objects, which the model type does not enforce by construction). -/
def nodupKeys : Obj → Bool
  | [] => true
  | (k, _) :: rest => !(keysOf rest).contains k && nodupKeys rest

/-- JSON whitespace accepted between tokens by `JSON.parse`. -/
def isJsonWs (c : Char) : Bool := c = ' ' || c = '\t' || c = '\n' || c = '\x0d'

def skipWs : List Char → List Char
  | [] => []
  | c :: cs => if isJsonWs c then skipWs cs else c :: cs

/-- Whitespace removed by `String.prototype.trim` (ASCII fragment; the extra
Unicode space characters trimmed by JS never appear in the claims). -/
def isTrimWs (c : Char) : Bool :=
  c = ' ' || c = '\t' || c = '\n' || c = '\x0d' || c = '\x0b' || c = '\x0c'

/-- Model of `s.trim()`. -/
def jsTrim (s : String) : String :=
  String.mk (((s.toList.dropWhile isTrimWs).reverse.dropWhile isTrimWs).reverse)

def isDigitChar (c : Char) : Bool := 48 ≤ c.toNat && c.toNat ≤ 57

def digitChar : Nat → Char
  | 0 => '0' | 1 => '1' | 2 => '2' | 3 => '3' | 4 => '4'
  | 5 => '5' | 6 => '6' | 7 => '7' | 8 => '8' | _ => '9'

/-- Decimal digits of `n`, most significant first; `fuel ≥ n` suffices. -/
def natStrGo : Nat → Nat → List Char
  | 0, n => [digitChar (n % 10)]
  | fuel + 1, n => if n < 10 then [digitChar n] else natStrGo fuel (n / 10) ++ [digitChar (n % 10)]

def natStr (n : Nat) : List Char := natStrGo n n

/-- The characters of `String(n)` for an integral JS number. -/
def intStr (n : Int) : List Char := if n < 0 then '-' :: natStr n.natAbs else natStr n.natAbs

def hexChar : Nat → Char
  | 0 => '0' | 1 => '1' | 2 => '2' | 3 => '3' | 4 => '4' | 5 => '5' | 6 => '6' | 7 => '7'
  | 8 => '8' | 9 => '9' | 10 => 'a' | 11 => 'b' | 12 => 'c' | 13 => 'd' | 14 => 'e' | _ => 'f'

/-- Escaping of one character inside a JSON string literal, as produced by
`JSON.stringify` (control characters below 0x20 get escaped, everything else
is emitted verbatim). -/
def escChar (c : Char) : List Char :=
  if c = '"' then ['\\', '"']
  else if c = '\\' then ['\\', '\\']
  else if c = '\x08' then ['\\', 'b']
  else if c = '\x0c' then ['\\', 'f']
  else if c = '\n' then ['\\', 'n']
  else if c = '\x0d' then ['\\', 'r']
  else if c = '\t' then ['\\', 't']
  else if c.toNat < 32 then ['\\', 'u', '0', '0', hexChar (c.toNat / 16), hexChar (c.toNat % 16)]
  else [c]

def escapeChars : List Char → List Char
  | [] => []
  | c :: cs => escChar c ++ escapeChars cs

/-- A quoted JSON string literal for `s`. -/
def quoteStr (s : String) : List Char := '"' :: escapeChars s.toList ++ ['"']

/- Model of `JSON.stringify` on modelled values.  `undefined` occurring as an
array element stringifies to `null` (the top-level `undefined` case is never
reached by the library, which only stringifies arrays and objects);
`undefined`-valued object members are skipped; a `Date` stringifies via its
`toJSON` to its quoted ISO string. -/
mutual

def jsonStringify : JSValue → String
  | .vNull => "null"
  | .vUndefined => "null"
  | .vBool b => if b then "true" else "false"
  | .vNum n => String.mk (intStr n)
  | .vStr s => String.mk (quoteStr s)
  | .vDate iso => String.mk (quoteStr iso)
  | .vArr xs => "[" ++ stringifyElems xs ++ "]"
  | .vObj fs => "\x7b" ++ stringifyMembers fs ++ "\x7d"

def stringifyElems : List JSValue → String
  | [] => ""
  | [x] => jsonStringify x
  | x :: y :: rest => jsonStringify x ++ "," ++ stringifyElems (y :: rest)

def stringifyMembers : List (String × JSValue) → String
  | [] => ""
  | (k, v) :: rest =>
    match v with
    | .vUndefined => stringifyMembers rest
    | _ =>
      let e := String.mk (quoteStr k) ++ ":" ++ jsonStringify v
      let r := stringifyMembers rest
      if r = "" then e else e ++ "," ++ r

end

def hexVal? (c : Char) : Option Nat :=
  if 48 ≤ c.toNat && c.toNat ≤ 57 then some (c.toNat - 48)
  else if 97 ≤ c.toNat && c.toNat ≤ 102 then some (c.toNat - 87)
  else if 65 ≤ c.toNat && c.toNat ≤ 70 then some (c.toNat - 55)
  else none

/-- Parse the body of a JSON string literal (after the opening quote), up to
and consuming the closing quote.  Returns the decoded characters and the rest
of the input.  Unescaped control characters are rejected, as in `JSON.parse`. -/
def parseStrBody : List Char → Option (List Char × List Char)
  | [] => none
  | c :: rest =>
    if c = '"' then some ([], rest)
    else if c = '\\' then
      match rest with
      | [] => none
      | e :: rest2 =>
        if e = '"' then (parseStrBody rest2).map (fun p => ('"' :: p.1, p.2))
        else if e = '\\' then (parseStrBody rest2).map (fun p => ('\\' :: p.1, p.2))
        else if e = '/' then (parseStrBody rest2).map (fun p => ('/' :: p.1, p.2))
        else if e = 'b' then (parseStrBody rest2).map (fun p => ('\x08' :: p.1, p.2))
        else if e = 'f' then (parseStrBody rest2).map (fun p => ('\x0c' :: p.1, p.2))
        else if e = 'n' then (parseStrBody rest2).map (fun p => ('\n' :: p.1, p.2))
        else if e = 'r' then (parseStrBody rest2).map (fun p => ('\x0d' :: p.1, p.2))
        else if e = 't' then (parseStrBody rest2).map (fun p => ('\t' :: p.1, p.2))
        else if e = 'u' then
          match rest2 with
          | h1 :: h2 :: h3 :: h4 :: rest3 =>
            match hexVal? h1, hexVal? h2, hexVal? h3, hexVal? h4 with
            | some a, some b, some g, some d =>
              (parseStrBody rest3).map
                (fun p => (Char.ofNat (a * 4096 + b * 256 + g * 16 + d) :: p.1, p.2))
            | _, _, _, _ => none
          | _ => none
        else none
    else if c.toNat < 32 then none
    else (parseStrBody rest).map (fun p => (c :: p.1, p.2))

/-- Longest digit run at the front of the input. -/
def takeDigits : List Char → List Char × List Char
  | [] => ([], [])
  | c :: cs =>
    if isDigitChar c then
      let p := takeDigits cs
      (c :: p.1, p.2)
    else ([], c :: cs)

def digitsToNat (ds : List Char) : Nat := ds.foldl (fun a c => a * 10 + (c.toNat - 48)) 0

/-- Parse an unsigned integral JSON number.  A following `.`, `e` or `E`
signals a non-integral literal, which the integer-valued model rejects
(real `JSON.parse` would produce a float there; no claim depends on one). -/
def parseDigits (cs : List Char) : Option (Nat × List Char) :=
  let p := takeDigits cs
  if p.1 = [] then none
  else
    match p.2 with
    | c :: _ => if c = '.' || c = 'e' || c = 'E' then none else some (digitsToNat p.1, p.2)
    | [] => some (digitsToNat p.1, [])

def parseIntTok : List Char → Option (Int × List Char)
  | [] => none
  | c :: cs =>
    if c = '-' then (parseDigits cs).map (fun p => (-(p.1 : Int), p.2))
    else (parseDigits (c :: cs)).map (fun p => ((p.1 : Int), p.2))

/- Recursive-descent model of `JSON.parse`.  The fuel argument only bounds
the recursion; any fuel at least the input length plus one is enough.
Duplicate keys in an object literal follow the JS rule: first occurrence
fixes the position, the last value wins (`objSetAll`). -/
mutual

def parseJ : Nat → List Char → Option (JSValue × List Char)
  | 0, _ => none
  | fuel + 1, cs0 =>
    match skipWs cs0 with
    | [] => none
    | c :: cs =>
      if c = 'n' then
        match cs with
        | 'u' :: 'l' :: 'l' :: rest => some (.vNull, rest)
        | _ => none
      else if c = 't' then
        match cs with
        | 'r' :: 'u' :: 'e' :: rest => some (.vBool true, rest)
        | _ => none
      else if c = 'f' then
        match cs with
        | 'a' :: 'l' :: 's' :: 'e' :: rest => some (.vBool false, rest)
        | _ => none
      else if c = '"' then
        (parseStrBody cs).map (fun p => (.vStr (String.mk p.1), p.2))
      else if c = '[' then
        match skipWs cs with
        | [] => none
        | d :: ds =>
          if d = ']' then some (.vArr [], ds)
          else (parseElems fuel (d :: ds)).map (fun p => (.vArr p.1, p.2))
      else if c = '\x7b' then
        match skipWs cs with
        | [] => none
        | d :: ds =>
          if d = '\x7d' then some (.vObj [], ds)
          else (parseMembers fuel (d :: ds)).map (fun p => (.vObj (objSetAll [] p.1), p.2))
      else (parseIntTok (c :: cs)).map (fun p => (.vNum p.1, p.2))

def parseElems : Nat → List Char → Option (List JSValue × List Char)
  | 0, _ => none
  | fuel + 1, cs =>
    match parseJ fuel cs with
    | none => none
    | some (v, rest) =>
      match skipWs rest with
      | [] => none
      | c :: rest2 =>
        if c = ',' then (parseElems fuel rest2).map (fun p => (v :: p.1, p.2))
        else if c = ']' then some ([v], rest2)
        else none

def parseMembers : Nat → List Char → Option (List (String × JSValue) × List Char)
  | 0, _ => none
  | fuel + 1, cs =>
    match skipWs cs with
    | [] => none
    | c :: cs1 =>
      if c = '"' then
        match parseStrBody cs1 with
        | none => none
        | some (kcs, rest2) =>
          match skipWs rest2 with
          | [] => none
          | d :: rest3 =>
            if d = ':' then
              match parseJ fuel rest3 with
              | none => none
              | some (v, rest4) =>
                match skipWs rest4 with
                | [] => none
                | e :: rest5 =>
                  if e = ',' then
                    (parseMembers fuel rest5).map (fun p => ((String.mk kcs, v) :: p.1, p.2))
                  else if e = '\x7d' then some ([(String.mk kcs, v)], rest5)
                  else none
            else none
      else none

end

/-- `JSON.parse(s)`: `none` models a thrown `SyntaxError`. -/
def jsonParse (s : String) : Option JSValue :=
  match parseJ (s.toList.length + 1) s.toList with
  | some (v, rest) => if skipWs rest = [] then some v else none
  | none => none

def headIs (s : String) (c : Char) : Bool :=
  match s.toList with
  | [] => false
  | d :: _ => d = c

def lastIs (s : String) (c : Char) : Bool :=
  match s.toList.reverse with
  | [] => false
  | d :: _ => d = c

/-- src/flatten.js lines 145-174, `parseValue`: decode one stored leaf. -/
def parseValue (v : JSValue) : JSValue :=
  match v with
  | .vStr s =>
    if s = "" then .vNull
    else if s = "\x7b\x7d" then .vObj []
    else if (headIs s '[' && lastIs s ']') || (headIs s '\x7b' && lastIs s '\x7d') then
      match jsonParse s with
      | some u => u
      | none => .vStr s
    else .vStr s
  | u => u

/- src/flatten.js lines 18-95, `flatten(obj, prefix, result)`.  The top-level
cases mirror lines 20-52 (note that a top-level `Date` has no own enumerable
keys, so it falls into the empty-keys branch and yields the sentinel);
`flattenFields` is the `for (const key of keys)` loop, lines 54-92, whose
inline child handling differs from a recursive call only for `Date` values. -/
mutual

def flatten (v : JSValue) (pre : String) (res : Obj) : Obj :=
  match v with
  | .vNull => if pre ≠ "" then objSet res pre (.vStr "") else res
  | .vUndefined => if pre ≠ "" then objSet res pre (.vStr "") else res
  | .vBool b => if pre ≠ "" then objSet res pre (.vBool b) else res
  | .vNum n => if pre ≠ "" then objSet res pre (.vNum n) else res
  | .vStr s => if pre ≠ "" then objSet res pre (.vStr s) else res
  | .vArr xs => if pre ≠ "" then objSet res pre (.vStr (jsonStringify (.vArr xs))) else res
  | .vDate _ => if pre ≠ "" then objSet res pre (.vStr "\x7b\x7d") else res
  | .vObj [] => if pre ≠ "" then objSet res pre (.vStr "\x7b\x7d") else res
  | .vObj (f :: fs) => flattenFields (f :: fs) pre res

def flattenFields (fields : List (String × JSValue)) (pre : String) (res : Obj) : Obj :=
  match fields with
  | [] => res
  | (k, v) :: rest =>
    let np := if pre = "" then k else pre ++ "." ++ k
    let res1 :=
      match v with
      | .vNull => objSet res np (.vStr "")
      | .vUndefined => objSet res np (.vStr "")
      | .vArr xs => objSet res np (.vStr (jsonStringify (.vArr xs)))
      | .vDate iso => objSet res np (.vStr iso)
      | .vObj [] => objSet res np (.vStr "\x7b\x7d")
      | .vObj (g :: gs) => flatten (.vObj (g :: gs)) np res
      | leaf => objSet res np leaf
    flattenFields rest pre res1

end

/-- Model of `path.split('.')` on the character list (JS `split` on a
one-character separator; an empty string splits to `[""]`). -/
def splitDotsC : List Char → List (List Char)
  | [] => [[]]
  | c :: cs =>
    if c = '.' then [] :: splitDotsC cs
    else
      match splitDotsC cs with
      | s :: rest => (c :: s) :: rest
      | [] => [[c]]

def splitDots (s : String) : List String := (splitDotsC s.toList).map String.mk

/-- One iteration of the inner `for` loop of `unflatten` (src/flatten.js
lines 114-128), as a functional insertion along the split path.  At an
intermediate segment, a missing, falsy or non-object value is replaced by a
fresh object node; an existing object node is descended into.  JS would
descend into an existing array or `Date` (both are truthy objects) and set
string-keyed properties on it, producing a value outside the JSON model, so
the model keeps the array/date unchanged there; no claim exercises that
branch. -/
def insertSegs (o : Obj) (segs : List String) (v : JSValue) : Obj :=
  match segs with
  | [] => o
  | [k] => objSet o k (parseValue v)
  | k :: rest =>
    match objGet o k with
    | some (.vObj fs) => objSet o k (.vObj (insertSegs fs rest v))
    | some (.vArr xs) => objSet o k (.vArr xs)
    | some (.vDate iso) => objSet o k (.vDate iso)
    | _ => objSet o k (.vObj (insertSegs [] rest v))

/-- src/flatten.js lines 107-132, `unflatten(flatObj)`. -/
def unflatten (flatObj : Obj) : Obj :=
  flatObj.foldl (fun o e => insertSegs o (splitDots e.1) e.2) []

def hasDoubleDot : List Char → Bool
  | [] => false
  | [_] => false
  | a :: b :: rest => (a = '.' && b = '.') || hasDoubleDot (b :: rest)

/-- src/types.js lines 364-388, `isValidPath(path)` (the model's paths are
always strings, so the `typeof` test is vacuous). -/
def isValidPath (path : String) : Bool :=
  if path = "" then false
  else if jsTrim path ≠ path then false
  else if headIs path '.' || lastIs path '.' then false
  else if hasDoubleDot path.toList then false
  else true

/-- src/types.js lines 395-412, `isValidObjId(objId)`. -/
def isValidObjId (objId : String) : Bool :=
  if objId = "" then false
  else if jsTrim objId ≠ objId then false
  else if 255 < objId.toList.length then false
  else true

/-- src/types.js lines 222-243, `getValueType(value)` (`typeof` of a `Date`
is `'object'` and it is not an array, so it classifies as `object`). -/
def getValueType : JSValue → String
  | .vNull => "null"
  | .vUndefined => "undefined"
  | .vArr _ => "array"
  | .vObj _ => "object"
  | .vDate _ => "object"
  | .vBool _ => "boolean"
  | .vNum _ => "number"
  | .vStr _ => "string"

/-- src/types.js lines 256-278, `serializeValue(value)` (a `Date` classifies
as `object`, so it goes through `JSON.stringify`, i.e. its quoted ISO text). -/
def serializeValue : JSValue → String
  | .vNull => ""
  | .vUndefined => ""
  | .vStr s => s
  | .vNum n => String.mk (intStr n)
  | .vBool b => if b then "true" else "false"
  | .vArr xs => jsonStringify (.vArr xs)
  | .vObj fs => jsonStringify (.vObj fs)
  | .vDate iso => jsonStringify (.vDate iso)

/-- Model of `Number(text)` restricted to integral literals: any text that is
not an optionally signed digit run is NaN here (real JS also accepts
fractions, exponents, hex and so on; the library only stores integral
numbers in the claims considered). -/
def jsNumber? (s : String) : Option Int :=
  match s.toList with
  | [] => none
  | c :: cs =>
    let body : List Char := if c = '-' then cs else c :: cs
    let p := takeDigits body
    if p.1 = [] || p.2 ≠ [] then none
    else some (if c = '-' then -(digitsToNat p.1 : Int) else (digitsToNat p.1 : Int))

/-- src/types.js lines 294-332, `deserializeValue(serialized, valueType)`. -/
def deserializeValue (text : String) (tag : String) : JSValue :=
  if tag = "null" || text = "" then .vNull
  else if tag = "undefined" then .vUndefined
  else if tag = "string" then .vStr text
  else if tag = "number" then
    match jsNumber? text with
    | some n => .vNum n
    | none => .vNum 0
  else if tag = "boolean" then .vBool (text = "true")
  else if tag = "array" || tag = "object" then
    match jsonParse text with
    | some v => v
    | none => if tag = "array" then .vArr [] else .vObj []
  else .vStr text

/-- src/types.js lines 339-347, `toStorageFormat(value)`. -/
def toStorageFormat (v : JSValue) : String × String := (serializeValue v, getValueType v)

/-- src/types.js lines 355-357, `fromStorageFormat(value, type)`. -/
def fromStorageFormat (text : String) (tag : String) : JSValue := deserializeValue text tag

/-- JS strict equality `===` as used by `set` (src/index.js line 121).  On
primitives it is value equality; two object, array or date values compare by
reference, and the model conservatively treats them as distinct references. -/
def strictEq : JSValue → JSValue → Bool
  | .vNull, .vNull => true
  | .vUndefined, .vUndefined => true
  | .vBool a, .vBool b => a = b
  | .vNum a, .vNum b => a = b
  | .vStr a, .vStr b => a = b
  | _, _ => false

/-- Session state of a `MaskQL` instance (src/index.js lines 27-34).  The JS
`Set` objects preserve insertion order and hold no duplicates; they are
modelled as insertion-ordered duplicate-free lists. -/
structure Session where
  currentObjId : Option String
  flatData : Obj
  originalFlatData : Obj
  dirtyPaths : List String
  deletedPaths : List String

/-- The freshly constructed session (src/index.js constructor). -/
def freshSession : Session :=
  ⟨none, [], [], [], []⟩

/-- `Set.add`: appends if absent, keeps the original position if present. -/
def addPath (l : List String) (p : String) : List String :=
  if l.contains p then l else l ++ [p]

/-- `Set.delete`. -/
def removePath (l : List String) (p : String) : List String :=
  l.filter (fun q => q ≠ p)

/-- The backing D1 table, keyed by (obj_id, key_path); a row holds
(value, value_type).  The timestamp columns play no part in any claim. -/
abbrev Store := String → String → Option (String × String)

/-- One prepared statement of a save batch (src/index.js lines 166-186). -/
inductive Stmt where
  | del (objId : String) (path : String)
  | upsert (objId : String) (path : String) (value : String) (vtype : String)

/-- Effect of one statement on the table (`DELETE` / `INSERT .. ON CONFLICT`). -/
def applyStmt (store : Store) : Stmt → Store
  | .del objId path => fun i q => if i = objId && q = path then none else store i q
  | .upsert objId path v t => fun i q => if i = objId && q = path then some (v, t) else store i q

/-- The batch built by `save()` (src/index.js lines 159-187): one `DELETE`
per deleted path that exists in the snapshot, in deletion-tracking order,
then one upsert per dirty path, in dirty-tracking order.  A dirty path
missing from `flatData` reads as `undefined` (`lookupD`), exactly as
`this.flatData[path]` does. -/
def saveStatements (s : Session) (objId : String) : List Stmt :=
  (s.deletedPaths.filter (fun p => (objGet s.originalFlatData p).isSome)).map
    (fun p => Stmt.del objId p)
  ++ s.dirtyPaths.map (fun p =>
      let sf := toStorageFormat (lookupD s.flatData p)
      Stmt.upsert objId p sf.1 sf.2)

/-- A session operation together with the backing store's response for the
operations that perform I/O (the environment may answer with any row list or
any failure, so quantifying over operation lists covers all store
behaviours).  `opUse` is `use`/load; `opSave`'s argument is the batch failure
cause, if the batch is made to fail; similarly for `opDeleteObject`. -/
inductive Op where
  | opUse (objId : String) (res : Except String (List (String × String × String)))
  | opGet (path : String)
  | opSet (path : String) (v : JSValue)
  | opDelete (path : String)
  | opSetAll (v : JSValue)
  | opSave (failCause : Option String)
  | opDeleteObject (objId : Option String) (failCause : Option String)
  | opExists (objId : String) (res : Except String Bool)

/-- Result of running one operation: the session and store afterwards,
whether any store I/O was attempted, the batch submitted by `save` (empty for
every other operation and when `save` skips the batch), and the thrown error
if any. -/
structure OpResult where
  session : Session
  store : Store
  io : Bool
  submitted : List Stmt
  error : Option String

/-- Populate `flatData` and `originalFlatData` from the rows returned by the
load query (src/index.js lines 63-69). -/
def populateRows (s : Session) : List (String × String × String) → Session
  | [] => s
  | (kp, v, t) :: rest =>
    let dv := fromStorageFormat v t
    populateRows
      { s with flatData := objSet s.flatData kp dv,
               originalFlatData := objSet s.originalFlatData kp dv } rest

/-- Transition function: the effect of each public method of `MaskQL`
(src/index.js) on the session and the store.

  - `opUse` (lines 42-73): validates the id, then resets all five state
    fields before the query; a failing query therefore leaves the session
    reset (with the new id installed) and throws a wrapped error.
  - `opGet` (lines 81-91): pure read.
  - `opSet` (lines 100-124): validate; clear any deletion mark; write the
    value; mark dirty only when JS `!==` holds between old and new value.
  - `opDelete` (lines 132-147): validate; only when the path is present,
    remove it, mark deleted, unmark dirty.
  - `opSetAll` (lines 238-259): mark every current path deleted, flatten the
    argument, install it, mark each new path dirty and unmark it deleted.
    (Pre-existing dirty marks are left in place.)
  - `opSave` (lines 154-201): build the batch; submit it only when nonempty;
    on success replace the snapshot and clear both trackers; on batch failure
    rethrow wrapped, leaving the session untouched.
  - `opDeleteObject` (lines 267-294): `objId || this.currentObjId` (an empty
    string is falsy, hence falls back to the current id); validate; delete
    all rows of the target; clear the session if the target is the loaded id.
  - `opExists` (lines 301-315): validate, then a read-only count query. -/
def applyOp (s : Session) (store : Store) (op : Op) : OpResult :=
  match op with
  | .opUse objId res =>
    if isValidObjId objId = false then
      ⟨s, store, false, [], some ("Invalid object ID: " ++ objId)⟩
    else
      let s1 : Session := ⟨some objId, [], [], [], []⟩
      match res with
      | .ok rows => ⟨populateRows s1 rows, store, true, [], none⟩
      | .error cause =>
        ⟨s1, store, true, [],
         some ("Failed to load object \"" ++ objId ++ "\" from D1: " ++ cause)⟩
  | .opGet path =>
    if isValidPath path = false then
      ⟨s, store, false, [], some ("Invalid path: " ++ path)⟩
    else if s.currentObjId.isNone then
      ⟨s, store, false, [], some "No object loaded. Call use() first."⟩
    else ⟨s, store, false, [], none⟩
  | .opSet path v =>
    if isValidPath path = false then
      ⟨s, store, false, [], some ("Invalid path: " ++ path)⟩
    else if s.currentObjId.isNone then
      ⟨s, store, false, [], some "No object loaded. Call use() first."⟩
    else
      let oldValue := lookupD s.flatData path
      let s1 :=
        { s with deletedPaths := removePath s.deletedPaths path,
                 flatData := objSet s.flatData path v,
                 dirtyPaths :=
                   if strictEq oldValue v then s.dirtyPaths else addPath s.dirtyPaths path }
      ⟨s1, store, false, [], none⟩
  | .opDelete path =>
    if isValidPath path = false then
      ⟨s, store, false, [], some ("Invalid path: " ++ path)⟩
    else if s.currentObjId.isNone then
      ⟨s, store, false, [], some "No object loaded. Call use() first."⟩
    else if (objGet s.flatData path).isSome then
      ⟨{ s with flatData := objRemove s.flatData path,
                deletedPaths := addPath s.deletedPaths path,
                dirtyPaths := removePath s.dirtyPaths path },
       store, false, [], none⟩
    else ⟨s, store, false, [], none⟩
  | .opSetAll v =>
    match s.currentObjId with
    | none => ⟨s, store, false, [], some "No object loaded. Call use() first."⟩
    | some _ =>
      let deleted1 := s.flatData.foldl (fun d e => addPath d e.1) s.deletedPaths
      let newFlat := flatten v "" []
      let final :=
        newFlat.foldl
          (fun (acc : Obj × List String × List String) e =>
            (objSet acc.1 e.1 e.2, addPath acc.2.1 e.1, removePath acc.2.2 e.1))
          (([] : Obj), s.dirtyPaths, deleted1)
      ⟨{ s with flatData := final.1, dirtyPaths := final.2.1, deletedPaths := final.2.2 },
       store, false, [], none⟩
  | .opSave failCause =>
    match s.currentObjId with
    | none => ⟨s, store, false, [], some "No object loaded. Call use() first."⟩
    | some objId =>
      let stmts := saveStatements s objId
      if stmts.isEmpty then
        ⟨{ s with originalFlatData := s.flatData, dirtyPaths := [], deletedPaths := [] },
         store, false, [], none⟩
      else
        match failCause with
        | some cause =>
          ⟨s, store, true, stmts,
           some ("Failed to save object \"" ++ objId ++ "\" to D1: " ++ cause)⟩
        | none =>
          ⟨{ s with originalFlatData := s.flatData, dirtyPaths := [], deletedPaths := [] },
           stmts.foldl applyStmt store, true, stmts, none⟩
  | .opDeleteObject objId failCause =>
    let target : Option String :=
      match objId with
      | some i => if i = "" then s.currentObjId else some i
      | none => s.currentObjId
    match target with
    | none => ⟨s, store, false, [], some "No object ID specified for deletion"⟩
    | some t =>
      if isValidObjId t = false then
        ⟨s, store, false, [], some ("Invalid object ID: " ++ t)⟩
      else
        match failCause with
        | some cause =>
          ⟨s, store, true, [],
           some ("Failed to delete object \"" ++ t ++ "\" from D1: " ++ cause)⟩
        | none =>
          let store1 : Store := fun i q => if i = t then none else store i q
          if s.currentObjId = some t then
            ⟨⟨none, [], [], [], []⟩, store1, true, [], none⟩
          else ⟨s, store1, true, [], none⟩
  | .opExists objId res =>
    if isValidObjId objId = false then
      ⟨s, store, false, [], some ("Invalid object ID: " ++ objId)⟩
    else
      match res with
      | .ok _ => ⟨s, store, true, [], none⟩
      | .error cause =>
        ⟨s, store, true, [],
         some ("Failed to check existence of object \"" ++ objId ++ "\": " ++ cause)⟩

/-- src/index.js lines 228-230, `hasUnsavedChanges()`. -/
def hasUnsavedChanges (s : Session) : Bool :=
  !s.dirtyPaths.isEmpty || !s.deletedPaths.isEmpty

/-- Run a list of operations from a given session and store. -/
def runTrace (s : Session) (store : Store) : List Op → Session × Store
  | [] => (s, store)
  | op :: ops =>
    let r := applyOp s store op
    runTrace r.session r.store ops

/-- Whether an operation is a `setAll` call. -/
def isSetAllOp : Op → Bool
  | .opSetAll _ => true
  | _ => false

/-- Boolean disjointness of two path lists. -/
def disjointPaths (l1 l2 : List String) : Bool :=
  l1.all (fun p => !l2.contains p)

/-- A statement is a `DELETE` for the given path. -/
def isDeleteOf (p : String) : Stmt → Bool
  | .del _ q => q = p
  | .upsert _ _ _ _ => false

/-- A value that is not a plain object at the top level of `flatten`
(`null`, `undefined`, a primitive, an array, or a `Date`). -/
def isPlainObject : JSValue → Bool
  | .vObj _ => true
  | _ => false

/- JSON-representability in the model: no `undefined` and no `Date` anywhere,
and duplicate-free keys at every object node (real JS objects cannot carry
duplicate keys; the model type does not rule them out by itself). -/
mutual

def jsonOK : JSValue → Bool
  | .vNull => true
  | .vBool _ => true
  | .vNum _ => true
  | .vStr _ => true
  | .vUndefined => false
  | .vDate _ => false
  | .vArr xs => jsonOKL xs
  | .vObj fs => nodupKeys fs && jsonOKF fs

def jsonOKL : List JSValue → Bool
  | [] => true
  | x :: xs => jsonOK x && jsonOKL xs

def jsonOKF : List (String × JSValue) → Bool
  | [] => true
  | (_, v) :: fs => jsonOK v && jsonOKF fs

end

/-- A key that survives the dotted-path encoding: nonempty and dot-free. -/
def keyOK (k : String) : Bool := k ≠ "" && !(k.toList.contains '.')

/- The domain on which the flatten/unflatten round trip holds: no `undefined`
or `Date` leaves, duplicate-free and dot-free nonempty keys at every object
node, string leaves that `parseValue` maps to themselves, and
JSON-representable arrays. -/
mutual

def goodVal : JSValue → Bool
  | .vNull => true
  | .vBool _ => true
  | .vNum _ => true
  | .vStr s => beqV (parseValue (.vStr s)) (.vStr s)
  | .vUndefined => false
  | .vDate _ => false
  | .vArr xs => jsonOKL xs
  | .vObj fs => nodupKeys fs && goodFields fs

def goodFields : List (String × JSValue) → Bool
  | [] => true
  | (k, v) :: fs => keyOK k && goodVal v && goodFields fs

end

/-- The leaf value stored by `flattenFields` for a non-recursive child. -/
def leafEnc : JSValue → JSValue
  | .vNull => .vStr ""
  | .vUndefined => .vStr ""
  | .vArr xs => .vStr (jsonStringify (.vArr xs))
  | .vDate iso => .vStr iso
  | .vObj _ => .vStr "\x7b\x7d"
  | leaf => leaf

/-- The leaf entries of a field list, with paths as segment lists. -/
def segEntries : List (String × JSValue) → List (List String × JSValue)
  | [] => []
  | (k, v) :: rest =>
    (match v with
     | .vObj (g :: gs) => (segEntries (g :: gs)).map (fun e => (k :: e.1, e.2))
     | _ => [([k], leafEnc v)]) ++ segEntries rest

/-- Dot-joining of segment character lists (inverse of `splitDotsC`). -/
def joinDotsC : List (List Char) → List Char
  | [] => []
  | [s] => s
  | s :: t :: rest => s ++ '.' :: joinDotsC (t :: rest)

/-- Dot-joining of segment strings. -/
def joinSegs (segs : List String) : String := String.mk (joinDotsC (segs.map String.toList))

/- Fuel sufficient for `parseJ` to parse the serialization of a value:
one unit per `parseJ` entry plus the worst nested requirement. -/
mutual

def fuelW : JSValue → Nat
  | .vArr [] => 1
  | .vArr (x :: xs) => 1 + fuelE (x :: xs)
  | .vObj [] => 1
  | .vObj (f :: fs) => 1 + fuelM (f :: fs)
  | _ => 1

def fuelE : List JSValue → Nat
  | [] => 1
  | [x] => 1 + fuelW x
  | x :: y :: rest => 1 + max (fuelW x) (fuelE (y :: rest))

def fuelM : List (String × JSValue) → Nat
  | [] => 1
  | [(_, v)] => 1 + fuelW v
  | (_, v) :: g :: rest => 1 + max (fuelW v) (fuelM (g :: rest))

end

/-- `setAll` keeps a session's bookkeeping consistent only when no currently
dirty path is dropped by the new object; this predicate states that
side-condition for one operation (vacuous for every other operation). -/
def setAllKeepsDirty (s : Session) : Op → Bool
  | .opSetAll v => s.dirtyPaths.all (fun p => (keysOf (flatten v "" [])).contains p)
  | _ => true

/-- All `setAll` calls along a trace satisfy `setAllKeepsDirty` in the state
where they execute. -/
def traceOK (s : Session) (store : Store) : List Op → Bool
  | [] => true
  | op :: ops =>
    setAllKeepsDirty s op &&
      (let r := applyOp s store op
       traceOK r.session r.store ops)

/-- An operation carrying a malformed object id or path, `deleteObject`
excluded when its argument is the empty string (which is falsy in JS). -/
def opInvalidArg : Op → Bool
  | .opUse objId _ => !isValidObjId objId
  | .opGet p => !isValidPath p
  | .opSet p _ => !isValidPath p
  | .opDelete p => !isValidPath p
  | .opDeleteObject (some objId) _ => !isValidObjId objId && objId ≠ ""
  | .opExists objId _ => !isValidObjId objId
  | _ => false

/-- The store with no rows. -/
def emptyStore : Store := fun _ _ => none

/-- A store holding one row: object `"x"`, path `"a"`, number `1`. -/
def oneRowStore : Store :=
  fun i q => if i = "x" && q = "a" then some ("1", "number") else none

/-- A session as it stands right after loading object `"x"` from
`oneRowStore`. -/
def sessionX : Session := ⟨some "x", [("a", .vNum 1)], [("a", .vNum 1)], [], []⟩

/-- A loaded session with a single dirty, never-persisted path. -/
def sessionDirty : Session := ⟨some "x", [("a", .vNum 1)], [], ["a"], []⟩

/-- A loaded session after deleting a path that was never persisted. -/
def sessionDel : Session := ⟨some "x", [], [], [], ["a"]⟩

/-- A loaded session holding only the path `"b"`. -/
def sessionB : Session := ⟨some "x", [("b", .vNum 1)], [("b", .vNum 1)], [], []⟩

/-- Characters allowed to follow a serialized JSON value in the contexts the
round-trip proof passes through (end of input, or an element/member
separator or closing bracket). -/
def restOKb : List Char → Bool
  | [] => true
  | c :: _ => c = ',' || c = ']' || c = '\x7d'

/-- The character list of the serialization of a value. -/
def strChars (v : JSValue) : List Char := (jsonStringify v).toList

/-- The bookkeeping invariant of a session: dirty and deleted are disjoint,
and every dirty path is still present in `flatData`. -/
def sessionInv (s : Session) : Prop :=
  (∀ q ∈ s.dirtyPaths, q ∉ s.deletedPaths) ∧
  (∀ q ∈ s.dirtyPaths, q ∈ keysOf s.flatData)

theorem populateRows_currentObjId (rows : List (String × String × String)) :
    ∀ s : Session, (populateRows s rows).currentObjId = s.currentObjId := by
  induction rows with
  | nil => intro s; rfl
  | cons r rest ih => intro s; obtain ⟨kp, v, t⟩ := r; simpa [populateRows] using ih _

theorem populateRows_dirtyPaths (rows : List (String × String × String)) :
    ∀ s : Session, (populateRows s rows).dirtyPaths = s.dirtyPaths := by
  induction rows with
  | nil => intro s; rfl
  | cons r rest ih => intro s; obtain ⟨kp, v, t⟩ := r; simpa [populateRows] using ih _

theorem populateRows_deletedPaths (rows : List (String × String × String)) :
    ∀ s : Session, (populateRows s rows).deletedPaths = s.deletedPaths := by
  induction rows with
  | nil => intro s; rfl
  | cons r rest ih => intro s; obtain ⟨kp, v, t⟩ := r; simpa [populateRows] using ih _

/-- Claim C9: flatten applied to a top-level value that is not a plain object
(null, undefined, a primitive, an array, or a Date) returns the empty
mapping; the value is dropped rather than stored under any path. -/
theorem c9_flatten_non_object_empty (v : JSValue) (h : isPlainObject v = false) :
    flatten v "" [] = [] := by
  cases v with
  | vObj fs => simp [isPlainObject] at h
  | vNull => simp [flatten]
  | vUndefined => simp [flatten]
  | vBool b => simp [flatten]
  | vNum n => simp [flatten]
  | vStr s => simp [flatten]
  | vDate iso => simp [flatten]
  | vArr xs => simp [flatten]

/-- Witness for C9 at the number 5. -/
theorem c9_flatten_non_object_empty_witness :
    isPlainObject (.vNum 5) = false ∧ flatten (.vNum 5) "" [] = [] :=
  ⟨rfl, c9_flatten_non_object_empty (.vNum 5) rfl⟩

/-- Claim C7: on a loaded session whose dirty set and deleted set are both
empty, save() builds no statements, submits no batch and performs no store
call at all, and reports no error. -/
theorem c7_empty_save_no_store_call (s : Session) (store : Store) (fc : Option String)
    (id : String) (hid : s.currentObjId = some id)
    (hd : s.dirtyPaths = []) (hdel : s.deletedPaths = []) :
    (applyOp s store (.opSave fc)).io = false ∧
    (applyOp s store (.opSave fc)).submitted = [] ∧
    (applyOp s store (.opSave fc)).error = none := by
  simp [applyOp, hid, saveStatements, hd, hdel]

/-- Witness for C7 on a freshly loaded session. -/
theorem c7_empty_save_no_store_call_witness :
    (applyOp sessionX oneRowStore (.opSave none)).io = false ∧
    (applyOp sessionX oneRowStore (.opSave none)).submitted = [] ∧
    (applyOp sessionX oneRowStore (.opSave none)).error = none :=
  c7_empty_save_no_store_call sessionX oneRowStore none "x" rfl rfl rfl

/-- Claim C5: when the store batch of save() is made to fail, the session
(flatData, snapshot, dirty set, deleted set, current id) and the store are
left exactly as before the call, and the surfaced error names the target
object id and carries the original cause. -/
theorem c5_save_failure_frame (s : Session) (store : Store) (id cause : String)
    (hid : s.currentObjId = some id)
    (hne : (saveStatements s id).isEmpty = false) :
    applyOp s store (.opSave (some cause)) =
      ⟨s, store, true, saveStatements s id,
       some ("Failed to save object \"" ++ id ++ "\" to D1: " ++ cause)⟩ := by
  simp [applyOp, hid, hne]

/-- Witness for C5 on a session with one dirty path. -/
theorem c5_save_failure_frame_witness :
    applyOp sessionDirty emptyStore (.opSave (some "boom")) =
      ⟨sessionDirty, emptyStore, true, saveStatements sessionDirty "x",
       some ("Failed to save object \"" ++ "x" ++ "\" to D1: " ++ "boom")⟩ :=
  c5_save_failure_frame sessionDirty emptyStore "x" "boom" rfl rfl

/-- Claim C6: a deleted path that is absent from the snapshot produces zero
DELETE statements in the batch of the next save(). -/
theorem c6_no_delete_for_unpersisted (s : Session) (store : Store) (fc : Option String)
    (p : String) (hp : s.deletedPaths.contains p = true)
    (hsnap : objGet s.originalFlatData p = none) :
    ((applyOp s store (.opSave fc)).submitted).all (fun st => !isDeleteOf p st) = true := by
  have hstmts : ∀ id : String, (saveStatements s id).all (fun st => !isDeleteOf p st) = true := by
    intro id
    simp only [saveStatements, List.all_append, Bool.and_eq_true, List.all_eq_true]
    constructor
    · intro st hst
      simp only [List.mem_map, List.mem_filter] at hst
      obtain ⟨q, ⟨_, hq⟩, rfl⟩ := hst
      simp only [isDeleteOf, Bool.not_eq_true']
      by_contra hqp
      simp only [Bool.not_eq_false, decide_eq_true_eq] at hqp
      subst hqp
      rw [hsnap] at hq
      simp at hq
    · intro st hst
      simp only [List.mem_map] at hst
      obtain ⟨q, _, rfl⟩ := hst
      rfl
  cases hcur : s.currentObjId with
  | none => simp [applyOp, hcur]
  | some id =>
    cases hemp : (saveStatements s id).isEmpty with
    | true => simp [applyOp, hcur, hemp]
    | false =>
      cases fc with
      | none => simpa [applyOp, hcur, hemp] using hstmts id
      | some cause => simpa [applyOp, hcur, hemp] using hstmts id

/-- Witness for C6: deleting a never-persisted path and saving. -/
theorem c6_no_delete_for_unpersisted_witness :
    ((applyOp sessionDel emptyStore (.opSave none)).submitted).all
      (fun st => !isDeleteOf "a" st) = true :=
  c6_no_delete_for_unpersisted sessionDel emptyStore none "a" rfl rfl

/-- Claim C10: delete(path) with a valid path that is absent from flatData,
on a loaded session, is a complete no-op: session, store, I/O and error are
all unchanged/absent. -/
theorem c10_delete_absent_noop (s : Session) (store : Store) (p : String)
    (hvalid : isValidPath p = true) (hloaded : s.currentObjId.isNone = false)
    (habsent : objGet s.flatData p = none) :
    applyOp s store (.opDelete p) = ⟨s, store, false, [], none⟩ := by
  simp [applyOp, hvalid, hloaded, habsent]

/-- Witness for C10: deleting the absent path `"a"` on a session holding only
`"b"`. -/
theorem c10_delete_absent_noop_witness :
    applyOp sessionB emptyStore (.opDelete "a") = ⟨sessionB, emptyStore, false, [], none⟩ :=
  c10_delete_absent_noop sessionB emptyStore "a" rfl rfl rfl

/-- Claim C8, counterexample: `deleteObject` coerces the malformed (empty,
hence falsy) object id `""` to the currently loaded id and proceeds: it
performs store I/O, raises no validation error, and clears the session state
(the claim asserts a synchronous pre-I/O failure with no mutation). -/
theorem c8_counterexample :
    isValidObjId "" = false ∧
    (applyOp sessionX oneRowStore (.opDeleteObject (some "") none)).io = true ∧
    (applyOp sessionX oneRowStore (.opDeleteObject (some "") none)).error = none ∧
    (applyOp sessionX oneRowStore (.opDeleteObject (some "") none)).session.currentObjId = none ∧
    (applyOp sessionX oneRowStore (.opDeleteObject (some "") none)).store "x" "a" = none := by
  refine ⟨rfl, rfl, rfl, rfl, rfl⟩

/-- Claim C8 as amended: for every session operation carrying a malformed
object id or path — use, get, set, delete, exists, and deleteObject with a
non-empty id — the validation failure is raised synchronously, before any
store I/O, and no session or store state is mutated.  (deleteObject treats
the empty string as absent and falls back to the current id.) -/
theorem c8_validation_preserves_state (s : Session) (store : Store) (op : Op)
    (h : opInvalidArg op = true) :
    (applyOp s store op).session = s ∧ (applyOp s store op).store = store ∧
    (applyOp s store op).io = false ∧ (applyOp s store op).error.isSome = true := by
  cases op with
  | opUse objId res =>
    simp only [opInvalidArg, Bool.not_eq_true'] at h
    simp [applyOp, h]
  | opGet p =>
    simp only [opInvalidArg, Bool.not_eq_true'] at h
    simp [applyOp, h]
  | opSet p v =>
    simp only [opInvalidArg, Bool.not_eq_true'] at h
    simp [applyOp, h]
  | opDelete p =>
    simp only [opInvalidArg, Bool.not_eq_true'] at h
    simp [applyOp, h]
  | opSetAll v => simp [opInvalidArg] at h
  | opSave fc => simp [opInvalidArg] at h
  | opDeleteObject objId fc =>
    cases objId with
    | none => simp [opInvalidArg] at h
    | some i =>
      simp only [opInvalidArg, Bool.and_eq_true, Bool.not_eq_true', decide_eq_true_eq] at h
      obtain ⟨hinv, hne⟩ := h
      simp [applyOp, hinv, hne]
  | opExists objId res =>
    simp only [opInvalidArg, Bool.not_eq_true'] at h
    simp [applyOp, h]

/-- Witness for the amended C8 at the malformed path `".a"`. -/
theorem c8_validation_preserves_state_witness :
    (applyOp freshSession emptyStore (.opGet ".a")).session = freshSession ∧
    (applyOp freshSession emptyStore (.opGet ".a")).store = emptyStore ∧
    (applyOp freshSession emptyStore (.opGet ".a")).io = false ∧
    (applyOp freshSession emptyStore (.opGet ".a")).error.isSome = true :=
  c8_validation_preserves_state freshSession emptyStore (.opGet ".a") rfl

/-- Claim C4, counterexample: on a freshly loaded (empty) session, one
set("a", undefined) re-assigns the value already read at that path
(`undefined === undefined`), so no dirty mark is set and
hasUnsavedChanges() stays false, where the claim asserts true.  The first
two conjuncts record that the session is loaded and the set call succeeded. -/
theorem c4_counterexample :
    (runTrace freshSession emptyStore [.opUse "x" (.ok [])]).1.currentObjId = some "x" ∧
    (applyOp (runTrace freshSession emptyStore [.opUse "x" (.ok [])]).1 emptyStore
      (.opSet "a" .vUndefined)).error = none ∧
    hasUnsavedChanges
      (applyOp (runTrace freshSession emptyStore [.opUse "x" (.ok [])]).1 emptyStore
        (.opSet "a" .vUndefined)).session = false := by
  refine ⟨rfl, rfl, rfl⟩

/-- Claim C4 as amended: after a successful load, hasUnsavedChanges() is
false; after one set(path, value) whose value is not strictly equal (JS ===)
to the value currently cached at that path, it is true; after a following
successful save() it is false again. -/
theorem c4_dirty_flag_lifecycle (s : Session) (store : Store) (id : String)
    (rows : List (String × String × String)) (p : String) (v : JSValue)
    (hid : isValidObjId id = true) (hp : isValidPath p = true)
    (hchanged : strictEq
      (lookupD (applyOp s store (.opUse id (.ok rows))).session.flatData p) v = false) :
    hasUnsavedChanges (applyOp s store (.opUse id (.ok rows))).session = false ∧
    hasUnsavedChanges (applyOp (applyOp s store (.opUse id (.ok rows))).session store
      (.opSet p v)).session = true ∧
    hasUnsavedChanges (applyOp (applyOp (applyOp s store (.opUse id (.ok rows))).session store
      (.opSet p v)).session store (.opSave none)).session = false := by
  have h1 : (applyOp s store (.opUse id (.ok rows))).session =
      populateRows ⟨some id, [], [], [], []⟩ rows := by
    simp [applyOp, hid]
  have hcur : (populateRows ⟨some id, [], [], [], []⟩ rows).currentObjId = some id :=
    populateRows_currentObjId rows _
  have hdirty : (populateRows ⟨some id, [], [], [], []⟩ rows).dirtyPaths = [] :=
    populateRows_dirtyPaths rows _
  have hdel : (populateRows ⟨some id, [], [], [], []⟩ rows).deletedPaths = [] :=
    populateRows_deletedPaths rows _
  rw [h1] at hchanged ⊢
  rcases hE : populateRows ⟨some id, [], [], [], []⟩ rows with ⟨c, f, o, d, dl⟩
  rw [hE] at hchanged hcur hdirty hdel
  simp only at hcur hdirty hdel
  subst hcur hdirty hdel
  refine ⟨by simp [hasUnsavedChanges], ?_, ?_⟩
  · simp [applyOp, hp, hchanged, hasUnsavedChanges, addPath]
  · simp [applyOp, hp, hchanged, addPath, removePath, saveStatements, hasUnsavedChanges]

/-- Witness for the amended C4: load an empty object, set `"a"` to 1, save. -/
theorem c4_dirty_flag_lifecycle_witness :
    hasUnsavedChanges (applyOp freshSession emptyStore (.opUse "x" (.ok []))).session = false ∧
    hasUnsavedChanges (applyOp (applyOp freshSession emptyStore
      (.opUse "x" (.ok []))).session emptyStore (.opSet "a" (.vNum 1))).session = true ∧
    hasUnsavedChanges (applyOp (applyOp (applyOp freshSession emptyStore
      (.opUse "x" (.ok []))).session emptyStore (.opSet "a" (.vNum 1))).session emptyStore
      (.opSave none)).session = false :=
  c4_dirty_flag_lifecycle freshSession emptyStore "x" [] "a" (.vNum 1) rfl rfl rfl

/-- Claim C2, counterexample: from a fresh session, use("x"), set("a", 1),
setAll(obj with only "b") leaves path "a" in the dirty set and in the
deleted set at once (setAll marks every old path deleted but never clears
pre-existing dirty marks). -/
theorem c2_counterexample :
    ((runTrace freshSession emptyStore
        [.opUse "x" (.ok []), .opSet "a" (.vNum 1),
         .opSetAll (.vObj [("b", .vNum 2)])]).1.dirtyPaths.contains "a" = true) ∧
    ((runTrace freshSession emptyStore
        [.opUse "x" (.ok []), .opSet "a" (.vNum 1),
         .opSetAll (.vObj [("b", .vNum 2)])]).1.deletedPaths.contains "a" = true) ∧
    disjointPaths
      (runTrace freshSession emptyStore
        [.opUse "x" (.ok []), .opSet "a" (.vNum 1),
         .opSetAll (.vObj [("b", .vNum 2)])]).1.dirtyPaths
      (runTrace freshSession emptyStore
        [.opUse "x" (.ok []), .opSet "a" (.vNum 1),
         .opSetAll (.vObj [("b", .vNum 2)])]).1.deletedPaths = false := by
  refine ⟨rfl, rfl, rfl⟩

/-- Claim C3, evaluation of the code at the failing input: the store holds
row ("x", "a") = 1; the session loads "x", runs set("a", 2), then
setAll(obj with only "b") and a successful save().  The claim requires the
persisted path set to equal exactly the keys of flatten(obj), namely
`["b"]`, with "a" removed; instead the stale dirty mark on "a" makes save
upsert `this.flatData["a"]`, which reads as `undefined`, so an
("", "undefined") row is re-persisted under "a" after its own DELETE. -/
theorem c3_setall_save_stale_dirty_row :
    ((runTrace freshSession oneRowStore
        [.opUse "x" (.ok [("a", "1", "number")]), .opSet "a" (.vNum 2),
         .opSetAll (.vObj [("b", .vNum 3)]), .opSave none]).2 "x" "a"
      = some ("", "undefined")) ∧
    ((runTrace freshSession oneRowStore
        [.opUse "x" (.ok [("a", "1", "number")]), .opSet "a" (.vNum 2),
         .opSetAll (.vObj [("b", .vNum 3)]), .opSave none]).2 "x" "b"
      = some ("3", "number")) ∧
    keysOf (flatten (.vObj [("b", .vNum 3)]) "" []) = ["b"] ∧
    ((runTrace freshSession oneRowStore
        [.opUse "x" (.ok [("a", "1", "number")]), .opSet "a" (.vNum 2),
         .opSetAll (.vObj [("b", .vNum 3)]), .opSave none]).1.dirtyPaths = []) := by
  refine ⟨rfl, rfl, rfl, rfl⟩



theorem contains_iff_mem (l : List String) (q : String) : l.contains q = true ↔ q ∈ l :=
  List.elem_iff

theorem mem_addPath (l : List String) (p q : String) : q ∈ addPath l p ↔ q ∈ l ∨ q = p := by
  unfold addPath
  by_cases h : l.contains p = true
  · rw [contains_iff_mem] at h
    rw [if_pos (by rw [contains_iff_mem]; exact h)]
    constructor
    · exact Or.inl
    · rintro (hq | rfl)
      · exact hq
      · exact h
  · rw [if_neg (by rw [contains_iff_mem]; rw [contains_iff_mem] at h; exact h)]
    simp

theorem mem_removePath (l : List String) (p q : String) :
    q ∈ removePath l p ↔ q ∈ l ∧ q ≠ p := by
  simp [removePath, List.mem_filter]

theorem mem_keysOf_objSet (o : Obj) (k : String) (v : JSValue) (q : String) :
    q ∈ keysOf (objSet o k v) ↔ q ∈ keysOf o ∨ q = k := by
  induction o with
  | nil => simp [objSet, keysOf]
  | cons e rest ih =>
    obtain ⟨a, w⟩ := e
    simp only [objSet]
    by_cases h : a = k
    · subst h
      rw [if_pos rfl]
      simp only [keysOf, List.map_cons, List.mem_cons]
      tauto
    · rw [if_neg h]
      simp only [keysOf, List.map_cons, List.mem_cons] at ih ⊢
      rw [ih]
      tauto

theorem mem_keysOf_objRemove (o : Obj) (k : String) (q : String) :
    q ∈ keysOf (objRemove o k) ↔ q ∈ keysOf o ∧ q ≠ k := by
  induction o with
  | nil => simp [objRemove, keysOf]
  | cons e rest ih =>
    obtain ⟨a, w⟩ := e
    simp only [objRemove]
    by_cases h : a = k
    · subst h
      rw [if_pos rfl]
      simp only [keysOf, List.map_cons, List.mem_cons] at ih ⊢
      rw [ih]
      constructor
      · rintro ⟨hq, hne⟩
        exact ⟨Or.inr hq, hne⟩
      · rintro ⟨hq | hq, hne⟩
        · exact absurd hq hne
        · exact ⟨hq, hne⟩
    · rw [if_neg h]
      simp only [keysOf, List.map_cons, List.mem_cons] at ih ⊢
      rw [ih]
      constructor
      · rintro (rfl | ⟨hq, hne⟩)
        · exact ⟨Or.inl rfl, h⟩
        · exact ⟨Or.inr hq, hne⟩
      · rintro ⟨hq | hq, hne⟩
        · subst hq
          exact Or.inl rfl
        · exact Or.inr ⟨hq, hne⟩

theorem setAllFold_spec (entries : Obj) (acc : Obj × List String × List String) :
    entries.foldl
      (fun (a : Obj × List String × List String) e =>
        (objSet a.1 e.1 e.2, addPath a.2.1 e.1, removePath a.2.2 e.1)) acc
    = (entries.foldl (fun o e => objSet o e.1 e.2) acc.1,
       entries.foldl (fun l e => addPath l e.1) acc.2.1,
       entries.foldl (fun l e => removePath l e.1) acc.2.2) := by
  induction entries generalizing acc with
  | nil => rfl
  | cons e rest ih => simp only [List.foldl_cons, ih]

theorem mem_foldl_addPath (entries : Obj) :
    ∀ (l : List String) (q : String),
      q ∈ entries.foldl (fun l e => addPath l e.1) l ↔ q ∈ l ∨ q ∈ keysOf entries := by
  induction entries with
  | nil => intro l q; simp [keysOf]
  | cons e rest ih =>
    intro l q
    simp only [List.foldl_cons, ih, mem_addPath, keysOf, List.map_cons, List.mem_cons]
    tauto

theorem mem_foldl_removePath (entries : Obj) :
    ∀ (l : List String) (q : String),
      q ∈ entries.foldl (fun l e => removePath l e.1) l ↔ q ∈ l ∧ q ∉ keysOf entries := by
  induction entries with
  | nil => intro l q; simp [keysOf]
  | cons e rest ih =>
    intro l q
    simp only [List.foldl_cons, ih, mem_removePath, keysOf, List.map_cons, List.mem_cons]
    tauto

theorem mem_keysOf_objSetAll (entries : Obj) :
    ∀ (o : Obj) (q : String),
      q ∈ keysOf (objSetAll o entries) ↔ q ∈ keysOf o ∨ q ∈ keysOf entries := by
  induction entries with
  | nil => intro o q; simp [objSetAll, keysOf]
  | cons e rest ih =>
    intro o q
    simp only [objSetAll, List.foldl_cons] at *
    rw [ih, mem_keysOf_objSet]
    simp only [keysOf, List.map_cons, List.mem_cons]
    tauto

theorem disjointPaths_iff (l1 l2 : List String) :
    disjointPaths l1 l2 = true ↔ ∀ q ∈ l1, q ∉ l2 := by
  simp only [disjointPaths, List.all_eq_true, Bool.not_eq_true']
  constructor
  · intro h q hq hq2
    have hc := h q hq
    rw [← contains_iff_mem l2 q] at hq2
    rw [hq2] at hc
    cases hc
  · intro h q hq
    by_contra hc
    simp only [Bool.not_eq_false] at hc
    exact h q hq ((contains_iff_mem l2 q).mp hc)


theorem sessionInv_step (s : Session) (store : Store) (op : Op)
    (hinv : sessionInv s) (hok : setAllKeepsDirty s op = true) :
    sessionInv (applyOp s store op).session := by
  obtain ⟨c, f, o, d, dl⟩ := s
  have hdisj := hinv.1
  have hsub := hinv.2
  simp only at hdisj hsub
  cases op with
  | opUse objId res =>
    by_cases hv : isValidObjId objId = false
    · simpa [applyOp, hv] using hinv
    · rw [Bool.not_eq_false] at hv
      cases res with
      | ok rows =>
        simp only [applyOp, hv, Bool.true_eq_false, if_false]
        constructor
        · intro q hq
          rw [populateRows_dirtyPaths] at hq
          cases hq
        · intro q hq
          rw [populateRows_dirtyPaths] at hq
          cases hq
      | error cause =>
        simp [applyOp, hv, sessionInv]
  | opGet p =>
    by_cases hv : isValidPath p = false
    · simpa [applyOp, hv] using hinv
    · rw [Bool.not_eq_false] at hv
      cases c with
      | none => simpa [applyOp, hv] using hinv
      | some id => simpa [applyOp, hv] using hinv
  | opSet p v =>
    by_cases hv : isValidPath p = false
    · simpa [applyOp, hv] using hinv
    · rw [Bool.not_eq_false] at hv
      cases c with
      | none => simpa [applyOp, hv] using hinv
      | some id =>
        by_cases hnew : strictEq (lookupD f p) v = true
        · simp only [applyOp, hv, Bool.true_eq_false, Bool.false_eq_true, if_false,
            Option.isNone_some, hnew, if_true, sessionInv]
          constructor
          · intro q hq
            rw [mem_removePath]
            rintro ⟨hq2, -⟩
            exact hdisj q hq hq2
          · intro q hq
            rw [mem_keysOf_objSet]
            exact Or.inl (hsub q hq)
        · simp only [Bool.not_eq_true] at hnew
          simp only [applyOp, hv, Bool.true_eq_false, if_false, Option.isNone_some, hnew,
            Bool.false_eq_true, sessionInv]
          constructor
          · intro q hq
            rw [mem_addPath] at hq
            rw [mem_removePath]
            rcases hq with hq | rfl
            · rintro ⟨hq2, -⟩
              exact hdisj q hq hq2
            · rintro ⟨-, hne⟩
              exact hne rfl
          · intro q hq
            rw [mem_addPath] at hq
            rw [mem_keysOf_objSet]
            rcases hq with hq | rfl
            · exact Or.inl (hsub q hq)
            · exact Or.inr rfl
  | opDelete p =>
    by_cases hv : isValidPath p = false
    · simpa [applyOp, hv] using hinv
    · rw [Bool.not_eq_false] at hv
      cases c with
      | none => simpa [applyOp, hv] using hinv
      | some id =>
        by_cases hpresent : (objGet f p).isSome = true
        · simp only [applyOp, hv, Bool.true_eq_false, Bool.false_eq_true, if_false,
            Option.isNone_some, hpresent, if_true, sessionInv]
          constructor
          · intro q hq
            rw [mem_removePath] at hq
            obtain ⟨hq, hne⟩ := hq
            rw [mem_addPath]
            rintro (hq2 | rfl)
            · exact hdisj q hq hq2
            · exact hne rfl
          · intro q hq
            rw [mem_removePath] at hq
            obtain ⟨hq, hne⟩ := hq
            rw [mem_keysOf_objRemove]
            exact ⟨hsub q hq, hne⟩
        · simp only [Bool.not_eq_true] at hpresent
          simpa [applyOp, hv, hpresent] using hinv
  | opSetAll v =>
    cases c with
    | none => simpa [applyOp] using hinv
    | some objId =>
      simp only [setAllKeepsDirty, List.all_eq_true] at hok
      simp only [applyOp, setAllFold_spec, sessionInv]
      constructor
      · intro q hq
        simp only [mem_foldl_addPath] at hq
        rw [mem_foldl_removePath]
        rintro ⟨-, hnotin⟩
        rcases hq with hq | hq
        · exact hnotin ((contains_iff_mem _ _).mp (hok q hq))
        · exact hnotin hq
      · intro q hq
        simp only [mem_foldl_addPath] at hq
        have hall : q ∈ keysOf (objSetAll [] (flatten v "" [])) := by
          rw [mem_keysOf_objSetAll]
          rcases hq with hq | hq
          · exact Or.inr ((contains_iff_mem _ _).mp (hok q hq))
          · exact Or.inr hq
        simpa [objSetAll] using hall
  | opSave fc =>
    cases c with
    | none => simpa [applyOp] using hinv
    | some objId =>
      by_cases hemp : (saveStatements ⟨some objId, f, o, d, dl⟩ objId).isEmpty = true
      · simp only [applyOp, hemp, if_true]
        simp [sessionInv]
      · simp only [Bool.not_eq_true] at hemp
        cases fc with
        | some cause => simpa [applyOp, hemp] using hinv
        | none =>
          simp only [applyOp, hemp, Bool.false_eq_true, if_false]
          simp [sessionInv]
  | opDeleteObject objId fc =>
    rcases objId with - | i
    · cases c with
      | none => simpa [applyOp] using hinv
      | some t =>
        by_cases hv : isValidObjId t = false
        · simpa [applyOp, hv] using hinv
        · rw [Bool.not_eq_false] at hv
          cases fc with
          | some cause => simpa [applyOp, hv] using hinv
          | none =>
            simp [applyOp, hv, sessionInv]
    · by_cases hi : i = ""
      · subst hi
        cases c with
        | none => simpa [applyOp] using hinv
        | some t =>
          by_cases hv : isValidObjId t = false
          · simpa [applyOp, hv] using hinv
          · rw [Bool.not_eq_false] at hv
            cases fc with
            | some cause => simpa [applyOp, hv] using hinv
            | none =>
              simp [applyOp, hv, sessionInv]
      · by_cases hv : isValidObjId i = false
        · simpa [applyOp, hi, hv] using hinv
        · rw [Bool.not_eq_false] at hv
          cases fc with
          | some cause => simpa [applyOp, hi, hv] using hinv
          | none =>
            by_cases hc : c = some i
            · subst hc
              simp [applyOp, hi, hv, sessionInv]
            · simpa [applyOp, hi, hv, hc] using hinv
  | opExists objId res =>
    by_cases hv : isValidObjId objId = false
    · simpa [applyOp, hv] using hinv
    · rw [Bool.not_eq_false] at hv
      cases res with
      | ok b => simpa [applyOp, hv] using hinv
      | error cause => simpa [applyOp, hv] using hinv

theorem sessionInv_runTrace (ops : List Op) :
    ∀ (s : Session) (store : Store), sessionInv s → traceOK s store ops = true →
      sessionInv (runTrace s store ops).1 := by
  induction ops with
  | nil => intro s store hinv _; exact hinv
  | cons op rest ih =>
    intro s store hinv hok
    simp only [traceOK, Bool.and_eq_true] at hok
    exact ih _ _ (sessionInv_step s store op hinv hok.1) hok.2

/-- Claim C2 as amended: starting from a fresh session, along any sequence of
session operations in which every setAll call re-introduces all
currently-dirty paths (in particular along any sequence without setAll), no
path is ever in both the dirty set and the deleted set. -/
theorem c2_dirty_deleted_disjoint (ops : List Op) (store : Store)
    (hok : traceOK freshSession store ops = true) :
    disjointPaths (runTrace freshSession store ops).1.dirtyPaths
      (runTrace freshSession store ops).1.deletedPaths = true := by
  have hinv : sessionInv freshSession := by
    constructor
    · intro q hq
      cases hq
    · intro q hq
      cases hq
  have hres := sessionInv_runTrace ops freshSession store hinv hok
  rw [disjointPaths_iff]
  exact hres.1

/-- Witness for the amended C2: a setAll-free trace with a set and a delete. -/
theorem c2_dirty_deleted_disjoint_witness :
    traceOK freshSession emptyStore
      [.opUse "x" (.ok []), .opSet "a" (.vNum 1), .opDelete "a"] = true ∧
    disjointPaths
      (runTrace freshSession emptyStore
        [.opUse "x" (.ok []), .opSet "a" (.vNum 1), .opDelete "a"]).1.dirtyPaths
      (runTrace freshSession emptyStore
        [.opUse "x" (.ok []), .opSet "a" (.vNum 1), .opDelete "a"]).1.deletedPaths = true :=
  ⟨rfl, c2_dirty_deleted_disjoint
    [.opUse "x" (.ok []), .opSet "a" (.vNum 1), .opDelete "a"] emptyStore rfl⟩

/-- Claim C1, counterexample: the object with the single empty-string leaf
`"a" ↦ ""` is JSON-representable with no undefined leaves, but the stored
leaf for a null and for an empty string coincide (both are `""`), and
`parseValue` decodes it to null, so the round trip returns `"a" ↦ null`
instead of the original value. -/
theorem c1_counterexample :
    jsonOK (.vObj [("a", .vStr "")]) = true ∧
    unflatten (flatten (.vObj [("a", .vStr "")]) "" []) = [("a", JSValue.vNull)] ∧
    unflatten (flatten (.vObj [("a", .vStr "")]) "" []) ≠ [("a", JSValue.vStr "")] := by
  refine ⟨rfl, rfl, ?_⟩
  intro h
  rw [show unflatten (flatten (.vObj [("a", .vStr "")]) "" []) = [("a", JSValue.vNull)]
    from rfl] at h
  simp at h

mutual

theorem beqV_iff : ∀ a b : JSValue, beqV a b = true ↔ a = b
  | .vNull, b => by cases b <;> simp [beqV]
  | .vUndefined, b => by cases b <;> simp [beqV]
  | .vBool a, b => by cases b <;> simp [beqV]
  | .vNum a, b => by cases b <;> simp [beqV]
  | .vStr a, b => by cases b <;> simp [beqV]
  | .vDate a, b => by cases b <;> simp [beqV]
  | .vArr xs, b => by
    cases b <;> simp [beqV]
    exact beqL_iff xs _
  | .vObj fs, b => by
    cases b <;> simp [beqV]
    exact beqF_iff fs _

theorem beqL_iff : ∀ xs ys : List JSValue, beqL xs ys = true ↔ xs = ys
  | [], ys => by cases ys <;> simp [beqL]
  | x :: xs, ys => by
    cases ys with
    | nil => simp [beqL]
    | cons y ys => simp [beqL, beqV_iff x y, beqL_iff xs ys]

theorem beqF_iff : ∀ fs gs : List (String × JSValue), beqF fs gs = true ↔ fs = gs
  | [], gs => by cases gs <;> simp [beqF]
  | (k, v) :: fs, gs => by
    cases gs with
    | nil => simp [beqF]
    | cons g gs =>
      obtain ⟨l, w⟩ := g
      simp [beqF, beqV_iff v w, beqF_iff fs gs, and_assoc]

end

theorem toList_mk (l : List Char) : (String.mk l).toList = l := rfl

theorem toList_append (a b : String) : (a ++ b).toList = a.toList ++ b.toList := by
  cases a
  cases b
  rfl

theorem digitChar_isDigit (n : Nat) (h : n < 10) : isDigitChar (digitChar n) = true := by
  interval_cases n <;> decide

theorem digitChar_toNat (n : Nat) (h : n < 10) : (digitChar n).toNat - 48 = n := by
  interval_cases n <;> decide

theorem digitsToNat_append (ds : List Char) (c : Char) :
    digitsToNat (ds ++ [c]) = digitsToNat ds * 10 + (c.toNat - 48) := by
  simp [digitsToNat, List.foldl_append]

theorem natStrGo_spec : ∀ fuel n, n ≤ fuel →
    natStrGo fuel n ≠ [] ∧ (natStrGo fuel n).all isDigitChar = true ∧
      digitsToNat (natStrGo fuel n) = n := by
  intro fuel
  induction fuel with
  | zero =>
    intro n hn
    interval_cases n
    refine ⟨by simp [natStrGo], by decide, by decide⟩
  | succ fuel ih =>
    intro n hn
    by_cases h10 : n < 10
    · simp only [natStrGo, h10, if_true]
      refine ⟨by simp, by simp [digitChar_isDigit n h10], ?_⟩
      show digitsToNat ([] ++ [digitChar n]) = n
      rw [digitsToNat_append, digitChar_toNat n h10]
      simp [digitsToNat]
    · simp only [natStrGo, h10, if_false]
      have hdiv : n / 10 ≤ fuel := by omega
      obtain ⟨hne, hall, hval⟩ := ih (n / 10) hdiv
      have hmod : n % 10 < 10 := Nat.mod_lt n (by omega)
      refine ⟨by simp, ?_, ?_⟩
      · simp only [List.all_append, hall, Bool.true_and, List.all_cons, List.all_nil,
          Bool.and_true]
        exact digitChar_isDigit _ hmod
      · rw [digitsToNat_append, hval, digitChar_toNat _ hmod]
        omega

theorem natStr_spec (n : Nat) :
    natStr n ≠ [] ∧ (natStr n).all isDigitChar = true ∧ digitsToNat (natStr n) = n :=
  natStrGo_spec n n le_rfl

theorem takeDigits_cons_not (c : Char) (cs : List Char) (h : isDigitChar c = false) :
    takeDigits (c :: cs) = ([], c :: cs) := by
  simp [takeDigits, h]

theorem takeDigits_append (ds rest : List Char)
    (hds : ds.all isDigitChar = true) (hrest : takeDigits rest = ([], rest)) :
    takeDigits (ds ++ rest) = (ds, rest) := by
  induction ds with
  | nil => simpa using hrest
  | cons d ds ih =>
    simp only [List.all_cons, Bool.and_eq_true] at hds
    simp only [List.cons_append, takeDigits, hds.1, if_true, List.append_eq, ih hds.2]

theorem restOKb_takeDigits (rest : List Char) (h : restOKb rest = true) :
    takeDigits rest = ([], rest) := by
  cases rest with
  | nil => rfl
  | cons c cs =>
    simp only [restOKb, Bool.or_eq_true, decide_eq_true_eq] at h
    rcases h with (rfl | rfl) | rfl <;> exact takeDigits_cons_not _ _ (by decide)

theorem isDigitChar_ne_chars (c : Char) (h : isDigitChar c = true) :
    c ≠ '-' ∧ c ≠ '.' ∧ c ≠ 'e' ∧ c ≠ 'E' := by
  simp only [isDigitChar, Bool.and_eq_true, decide_eq_true_eq] at h
  refine ⟨?_, ?_, ?_, ?_⟩ <;> (intro heq; subst heq; revert h; decide)

theorem restOKb_not_numchar (c : Char) (cs : List Char) (h : restOKb (c :: cs) = true) :
    ¬(c = '.' ∨ c = 'e' ∨ c = 'E') := by
  simp only [restOKb, Bool.or_eq_true, decide_eq_true_eq] at h
  rcases h with (rfl | rfl) | rfl <;> decide


theorem parseDigits_natStr (n : Nat) (rest : List Char) (hrest : restOKb rest = true) :
    parseDigits (natStr n ++ rest) = some (n, rest) := by
  obtain ⟨hne, hall, hval⟩ := natStr_spec n
  have htd := takeDigits_append (natStr n) rest hall (restOKb_takeDigits rest hrest)
  cases rest with
  | nil =>
    rw [List.append_nil] at htd
    simp [parseDigits, htd, hne, hval]
  | cons c cs =>
    simp only [restOKb, Bool.or_eq_true, decide_eq_true_eq] at hrest
    rcases hrest with (rfl | rfl) | rfl <;> simp [parseDigits, htd, hne, hval]

theorem parseIntTok_intStr (n : Int) (rest : List Char) (hrest : restOKb rest = true) :
    parseIntTok (intStr n ++ rest) = some (n, rest) := by
  unfold intStr
  by_cases hn : n < 0
  · rw [if_pos hn]
    show parseIntTok ('-' :: (natStr n.natAbs ++ rest)) = some (n, rest)
    simp only [parseIntTok, if_true]
    rw [parseDigits_natStr _ _ hrest]
    simp only [Option.map_some']
    have habs : -(n.natAbs : Int) = n := by omega
    rw [habs]
  · rw [if_neg hn]
    obtain ⟨hne, hall, -⟩ := natStr_spec n.natAbs
    rcases hhead : natStr n.natAbs with - | ⟨c, cs⟩
    · exact absurd hhead hne
    · rw [hhead] at hall
      simp only [List.all_cons, Bool.and_eq_true] at hall
      have hcne := (isDigitChar_ne_chars c hall.1).1
      show parseIntTok (c :: (cs ++ rest)) = some (n, rest)
      simp only [parseIntTok]
      rw [if_neg hcne]
      rw [show c :: (cs ++ rest) = natStr n.natAbs ++ rest by rw [hhead]; rfl]
      rw [parseDigits_natStr _ _ hrest]
      simp only [Option.map_some']
      have habs : ((n.natAbs : Int)) = n := by omega
      rw [habs]

theorem hexVal_hexChar (m : Nat) (h : m < 16) : hexVal? (hexChar m) = some m := by
  interval_cases m <;> decide



theorem parseStrBody_escape (l rest : List Char) :
    parseStrBody (escapeChars l ++ '"' :: rest) = some (l, rest) := by
  induction l with
  | nil =>
    show parseStrBody ('"' :: rest) = some ([], rest)
    rw [parseStrBody.eq_def]
    simp
  | cons c l ih =>
    show parseStrBody ((escChar c ++ escapeChars l) ++ '"' :: rest) = _
    rw [List.append_assoc]
    unfold escChar
    by_cases h1 : c = '"'
    · subst h1
      rw [if_pos rfl]
      show parseStrBody ('\\' :: '"' :: (escapeChars l ++ '"' :: rest)) = _
      rw [parseStrBody.eq_def]
      simp [ih]
    · rw [if_neg h1]
      by_cases h2 : c = '\\'
      · subst h2
        rw [if_pos rfl]
        show parseStrBody ('\\' :: '\\' :: (escapeChars l ++ '"' :: rest)) = _
        rw [parseStrBody.eq_def]
        simp [ih]
      · rw [if_neg h2]
        by_cases h3 : c = '\x08'
        · subst h3
          rw [if_pos rfl]
          show parseStrBody ('\\' :: 'b' :: (escapeChars l ++ '"' :: rest)) = _
          rw [parseStrBody.eq_def]
          simp [ih]
        · rw [if_neg h3]
          by_cases h4 : c = '\x0c'
          · subst h4
            rw [if_pos rfl]
            show parseStrBody ('\\' :: 'f' :: (escapeChars l ++ '"' :: rest)) = _
            rw [parseStrBody.eq_def]
            simp [ih]
          · rw [if_neg h4]
            by_cases h5 : c = '\n'
            · subst h5
              rw [if_pos rfl]
              show parseStrBody ('\\' :: 'n' :: (escapeChars l ++ '"' :: rest)) = _
              rw [parseStrBody.eq_def]
              simp [ih]
            · rw [if_neg h5]
              by_cases h6 : c = '\x0d'
              · subst h6
                rw [if_pos rfl]
                show parseStrBody ('\\' :: 'r' :: (escapeChars l ++ '"' :: rest)) = _
                rw [parseStrBody.eq_def]
                simp [ih]
              · rw [if_neg h6]
                by_cases h7 : c = '\t'
                · subst h7
                  rw [if_pos rfl]
                  show parseStrBody ('\\' :: 't' :: (escapeChars l ++ '"' :: rest)) = _
                  rw [parseStrBody.eq_def]
                  simp [ih]
                · rw [if_neg h7]
                  by_cases h8 : c.toNat < 32
                  · rw [if_pos h8]
                    have hdiv : c.toNat / 16 < 16 := by omega
                    have hmod : c.toNat % 16 < 16 := by omega
                    show parseStrBody ('\\' :: 'u' :: '0' :: '0' :: hexChar (c.toNat / 16) ::
                      hexChar (c.toNat % 16) :: (escapeChars l ++ '"' :: rest)) = _
                    rw [parseStrBody.eq_def]
                    simp only [List.cons.injEq, reduceIte, hexVal_hexChar _ hdiv,
                      hexVal_hexChar _ hmod, ih]
                    simp [ih]
                    rw [show hexVal? '0' = some 0 from rfl]
                    show some (Char.ofNat (0 * 4096 + 0 * 256 + c.toNat / 16 * 16
                      + c.toNat % 16) :: l, rest) = some (c :: l, rest)
                    have hv : 0 * 4096 + 0 * 256 + c.toNat / 16 * 16 + c.toNat % 16
                      = c.toNat := by omega
                    rw [hv, Char.ofNat_toNat]
                  · rw [if_neg h8]
                    show parseStrBody (c :: (escapeChars l ++ '"' :: rest)) = _
                    rw [parseStrBody.eq_def]
                    simp [h1, h2, h8, ih]

theorem jsonOK_arr (xs : List JSValue) : jsonOK (.vArr xs) = jsonOKL xs := by
  rw [jsonOK.eq_def]

theorem jsonOK_obj (fs : List (String × JSValue)) :
    jsonOK (.vObj fs) = (nodupKeys fs && jsonOKF fs) := by
  rw [jsonOK.eq_def]

theorem jsonOKL_cons (x : JSValue) (xs : List JSValue) :
    jsonOKL (x :: xs) = (jsonOK x && jsonOKL xs) := by
  rw [jsonOKL.eq_def]

theorem jsonOKF_cons (k : String) (v : JSValue) (fs : List (String × JSValue)) :
    jsonOKF ((k, v) :: fs) = (jsonOK v && jsonOKF fs) := by
  rw [jsonOKF.eq_def]

theorem strChars_null : strChars .vNull = ['n', 'u', 'l', 'l'] := rfl

theorem strChars_undef : strChars .vUndefined = ['n', 'u', 'l', 'l'] := rfl

theorem strChars_true : strChars (.vBool true) = ['t', 'r', 'u', 'e'] := rfl

theorem strChars_false : strChars (.vBool false) = ['f', 'a', 'l', 's', 'e'] := rfl

theorem strChars_num (n : Int) : strChars (.vNum n) = intStr n := rfl

theorem strChars_str (s : String) : strChars (.vStr s) = quoteStr s := rfl

theorem strChars_date (iso : String) : strChars (.vDate iso) = quoteStr iso := rfl

theorem strChars_arr (xs : List JSValue) :
    strChars (.vArr xs) = '[' :: (stringifyElems xs).toList ++ [']'] := by
  show (jsonStringify (.vArr xs)).toList = _
  rw [jsonStringify.eq_def]
  show ("[" ++ stringifyElems xs ++ "]").toList = _
  rw [toList_append, toList_append]
  rfl

theorem strChars_obj (fs : List (String × JSValue)) :
    strChars (.vObj fs) = '\x7b' :: (stringifyMembers fs).toList ++ ['\x7d'] := by
  show (jsonStringify (.vObj fs)).toList = _
  rw [jsonStringify.eq_def]
  show ("\x7b" ++ stringifyMembers fs ++ "\x7d").toList = _
  rw [toList_append, toList_append]
  rfl

theorem stringifyElems_single (x : JSValue) :
    (stringifyElems [x]).toList = strChars x := by
  rw [stringifyElems.eq_def]
  rfl

theorem stringifyElems_cons2 (x y : JSValue) (rest : List JSValue) :
    (stringifyElems (x :: y :: rest)).toList
      = strChars x ++ ',' :: (stringifyElems (y :: rest)).toList := by
  rw [stringifyElems.eq_def]
  show (jsonStringify x ++ "," ++ stringifyElems (y :: rest)).toList = _
  rw [toList_append, toList_append, List.append_assoc]
  rfl

theorem fuelW_arr_cons (x : JSValue) (xs : List JSValue) :
    fuelW (.vArr (x :: xs)) = 1 + fuelE (x :: xs) := by
  rw [fuelW.eq_def]

theorem fuelW_obj_cons (f : String × JSValue) (fs : List (String × JSValue)) :
    fuelW (.vObj (f :: fs)) = 1 + fuelM (f :: fs) := by
  rw [fuelW.eq_def]

theorem fuelE_single (x : JSValue) : fuelE [x] = 1 + fuelW x := by
  rw [fuelE.eq_def]

theorem fuelE_cons2 (x y : JSValue) (rest : List JSValue) :
    fuelE (x :: y :: rest) = 1 + max (fuelW x) (fuelE (y :: rest)) := by
  rw [fuelE.eq_def]

theorem fuelM_single (k : String) (v : JSValue) : fuelM [(k, v)] = 1 + fuelW v := by
  rw [fuelM.eq_def]

theorem fuelM_cons2 (k : String) (v : JSValue) (g : String × JSValue)
    (rest : List (String × JSValue)) :
    fuelM ((k, v) :: g :: rest) = 1 + max (fuelW v) (fuelM (g :: rest)) := by
  rw [fuelM.eq_def]

theorem fuelW_pos (v : JSValue) : 1 ≤ fuelW v := by
  cases v with
  | vArr xs =>
    cases xs with
    | nil => rw [fuelW.eq_def]
    | cons x xs =>
      rw [fuelW_arr_cons]
      omega
  | vObj fs =>
    cases fs with
    | nil => rw [fuelW.eq_def]
    | cons f fs =>
      rw [fuelW_obj_cons]
      omega
  | vNull => rw [fuelW.eq_def]
  | vUndefined => rw [fuelW.eq_def]
  | vBool b => rw [fuelW.eq_def]
  | vNum n => rw [fuelW.eq_def]
  | vStr s => rw [fuelW.eq_def]
  | vDate iso => rw [fuelW.eq_def]

theorem skipWs_cons_not (c : Char) (cs : List Char) (h : isJsonWs c = false) :
    skipWs (c :: cs) = c :: cs := by
  simp [skipWs, h]

theorem char_ne_of_toNat (a b : Char) (h : a.toNat ≠ b.toNat) : a ≠ b := by
  intro he
  exact h (he ▸ rfl)

theorem digit_head_facts (c : Char) (h : isDigitChar c = true ∨ c = '-') :
    isJsonWs c = false ∧ c ≠ 'n' ∧ c ≠ 't' ∧ c ≠ 'f' ∧ c ≠ '"' ∧ c ≠ '[' ∧ c ≠ '\x7b' := by
  rcases h with h | rfl
  · simp only [isDigitChar, Bool.and_eq_true, decide_eq_true_eq] at h
    have hne : c ≠ ' ' ∧ c ≠ '\t' ∧ c ≠ '\n' ∧ c ≠ '\x0d' := by
      refine ⟨?_, ?_, ?_, ?_⟩ <;> (apply char_ne_of_toNat; simp; omega)
    refine ⟨?_, ?_, ?_, ?_, ?_, ?_, ?_⟩
    · simp [isJsonWs, hne.1, hne.2.1, hne.2.2.1, hne.2.2.2]
    all_goals (apply char_ne_of_toNat; simp; omega)
  · exact ⟨by decide, by decide, by decide, by decide, by decide, by decide, by decide⟩

theorem intStr_head (n : Int) :
    ∃ c cs, intStr n = c :: cs ∧ (isDigitChar c = true ∨ c = '-') := by
  unfold intStr
  obtain ⟨hne, hall, -⟩ := natStr_spec n.natAbs
  by_cases hn : n < 0
  · exact ⟨'-', natStr n.natAbs, by rw [if_pos hn], Or.inr rfl⟩
  · rcases hhead : natStr n.natAbs with - | ⟨c, cs⟩
    · exact absurd hhead hne
    · rw [hhead] at hall
      simp only [List.all_cons, Bool.and_eq_true] at hall
      refine ⟨c, cs, ?_, Or.inl hall.1⟩
      rw [if_neg hn]

theorem fuelE_pos (xs : List JSValue) : 1 ≤ fuelE xs := by
  cases xs with
  | nil => rw [fuelE.eq_def]
  | cons x xs =>
    cases xs with
    | nil => rw [fuelE_single]; omega
    | cons y rest => rw [fuelE_cons2]; omega

theorem fuelM_pos (fs : List (String × JSValue)) : 1 ≤ fuelM fs := by
  cases fs with
  | nil => rw [fuelM.eq_def]
  | cons f fs =>
    obtain ⟨k, v⟩ := f
    cases fs with
    | nil => rw [fuelM_single]; omega
    | cons g rest => rw [fuelM_cons2]; omega

theorem strChars_head_facts (v : JSValue) :
    ∃ c cs, strChars v = c :: cs ∧ isJsonWs c = false ∧ c ≠ ']' ∧ c ≠ '\x7d' := by
  cases v with
  | vNull => exact ⟨'n', _, strChars_null, by decide, by decide, by decide⟩
  | vUndefined => exact ⟨'n', _, strChars_undef, by decide, by decide, by decide⟩
  | vBool b =>
    cases b with
    | true => exact ⟨'t', _, strChars_true, by decide, by decide, by decide⟩
    | false => exact ⟨'f', _, strChars_false, by decide, by decide, by decide⟩
  | vNum n =>
    obtain ⟨c, cs, hI, hcd⟩ := intStr_head n
    refine ⟨c, cs, by rw [strChars_num, hI], ?_, ?_, ?_⟩
    · exact (digit_head_facts c hcd).1
    · rcases hcd with h | rfl
      · simp only [isDigitChar, Bool.and_eq_true, decide_eq_true_eq] at h
        apply char_ne_of_toNat
        simp
        omega
      · decide
    · rcases hcd with h | rfl
      · simp only [isDigitChar, Bool.and_eq_true, decide_eq_true_eq] at h
        apply char_ne_of_toNat
        simp
        omega
      · decide
  | vStr s => exact ⟨'"', _, strChars_str s, by decide, by decide, by decide⟩
  | vDate iso => exact ⟨'"', _, strChars_date iso, by decide, by decide, by decide⟩
  | vArr xs => exact ⟨'[', _, strChars_arr xs, by decide, by decide, by decide⟩
  | vObj fs => exact ⟨'\x7b', _, strChars_obj fs, by decide, by decide, by decide⟩

theorem jsonOK_undef : jsonOK .vUndefined = false := rfl

theorem jsonOK_date (iso : String) : jsonOK (.vDate iso) = false := rfl

theorem objSet_fresh (o : Obj) (k : String) (v : JSValue) (h : k ∉ keysOf o) :
    objSet o k v = o ++ [(k, v)] := by
  induction o with
  | nil => rfl
  | cons e rest ih =>
    obtain ⟨a, w⟩ := e
    simp only [keysOf, List.map_cons, List.mem_cons] at h
    push_neg at h
    simp only [objSet, if_neg (Ne.symm h.1), List.cons_append]
    rw [ih]
    intro hk
    exact h.2 hk

theorem nodupKeys_cons (k : String) (v : JSValue) (rest : Obj) :
    nodupKeys ((k, v) :: rest) = (!(keysOf rest).contains k && nodupKeys rest) := rfl


theorem objSetAll_fresh : ∀ (entries o : Obj),
    (∀ q ∈ keysOf entries, q ∉ keysOf o) → nodupKeys entries = true →
    objSetAll o entries = o ++ entries := by
  intro entries
  induction entries with
  | nil => intro o _ _; simp [objSetAll]
  | cons e rest ih =>
    intro o hfresh hnd
    obtain ⟨k, v⟩ := e
    rw [nodupKeys_cons] at hnd
    simp only [Bool.and_eq_true, Bool.not_eq_true'] at hnd
    have hk : k ∉ keysOf o := by
      apply hfresh
      simp [keysOf]
    show objSetAll (objSet o k v) rest = o ++ (k, v) :: rest
    rw [objSet_fresh o k v hk, ih (o ++ [(k, v)]) ?_ hnd.2]
    · simp
    · intro q hq
      have h1 : q ∉ keysOf o := hfresh q (List.mem_cons_of_mem _ hq)
      have h2 : q ≠ k := by
        intro hqk
        subst hqk
        rw [← contains_iff_mem] at hq
        rw [hnd.1] at hq
        cases hq
      intro hmem
      rw [show keysOf (o ++ [(k, v)]) = keysOf o ++ [k] by simp [keysOf]] at hmem
      rcases List.mem_append.mp hmem with h | h
      · exact h1 h
      · exact h2 (by simpa using h)

theorem objSetAll_self (fs : Obj) (h : nodupKeys fs = true) : objSetAll [] fs = fs := by
  have := objSetAll_fresh fs [] (by simp [keysOf]) h
  simpa using this

theorem string_ne_empty_of_toList (s : String) (h : s.toList ≠ []) : s ≠ "" := by
  intro he
  subst he
  exact h rfl

theorem stringifyMembers_cons_eq (k : String) (v : JSValue) (fs : List (String × JSValue))
    (hv : v ≠ .vUndefined) :
    stringifyMembers ((k, v) :: fs) =
      (if stringifyMembers fs = "" then String.mk (quoteStr k) ++ ":" ++ jsonStringify v
       else String.mk (quoteStr k) ++ ":" ++ jsonStringify v ++ "," ++ stringifyMembers fs) := by
  cases v with
  | vUndefined => exact absurd rfl hv
  | vNull => rw [stringifyMembers.eq_def]
  | vBool b => rw [stringifyMembers.eq_def]
  | vNum n => rw [stringifyMembers.eq_def]
  | vStr s => rw [stringifyMembers.eq_def]
  | vDate iso => rw [stringifyMembers.eq_def]
  | vArr xs => rw [stringifyMembers.eq_def]
  | vObj gs => rw [stringifyMembers.eq_def]

theorem stringifyMembers_cons_ne (k : String) (v : JSValue) (fs : List (String × JSValue))
    (hv : v ≠ .vUndefined) : stringifyMembers ((k, v) :: fs) ≠ "" := by
  rw [stringifyMembers_cons_eq k v fs hv]
  split <;> (apply string_ne_empty_of_toList; simp [toList_append, quoteStr])

theorem stringifyMembers_single_chars (k : String) (v : JSValue) (hv : v ≠ .vUndefined) :
    (stringifyMembers [(k, v)]).toList = quoteStr k ++ ':' :: strChars v := by
  rw [stringifyMembers_cons_eq k v [] hv,
    if_pos (show stringifyMembers [] = "" from rfl), toList_append, toList_append,
    List.append_assoc]
  rfl

theorem stringifyMembers_cons2_chars (k : String) (v : JSValue) (l : String) (w : JSValue)
    (rest : List (String × JSValue)) (hv : v ≠ .vUndefined) (hw : w ≠ .vUndefined) :
    (stringifyMembers ((k, v) :: (l, w) :: rest)).toList
      = quoteStr k ++ ':' :: strChars v ++ ',' :: (stringifyMembers ((l, w) :: rest)).toList := by
  rw [stringifyMembers_cons_eq k v _ hv, if_neg (stringifyMembers_cons_ne l w rest hw),
    toList_append, toList_append, toList_append, toList_append]
  simp [List.append_assoc]
  rfl

theorem mk_toList (s : String) : String.mk s.toList = s := by
  cases s
  rfl

theorem jsonOK_ne_undef (v : JSValue) (h : jsonOK v = true) : v ≠ .vUndefined := by
  intro heq
  subst heq
  rw [jsonOK_undef] at h
  cases h

theorem stringifyElems_head (xs : List JSValue) (hne : xs ≠ []) :
    ∃ c cs, (stringifyElems xs).toList = c :: cs ∧ isJsonWs c = false ∧ c ≠ ']' ∧ c ≠ '\x7d' := by
  cases xs with
  | nil => exact absurd rfl hne
  | cons x xs =>
    obtain ⟨c, cs2, hx, hws, hrb, hbb⟩ := strChars_head_facts x
    cases xs with
    | nil =>
      refine ⟨c, cs2, ?_, hws, hrb, hbb⟩
      rw [stringifyElems_single, hx]
    | cons y r =>
      refine ⟨c, cs2 ++ ',' :: (stringifyElems (y :: r)).toList, ?_, hws, hrb, hbb⟩
      rw [stringifyElems_cons2, hx]
      rfl


theorem stringifyMembers_head (k : String) (v : JSValue) (fs : List (String × JSValue))
    (hok : jsonOKF ((k, v) :: fs) = true) :
    ∃ cs, (stringifyMembers ((k, v) :: fs)).toList
      = '"' :: (escapeChars k.toList ++ '"' :: cs) := by
  rw [jsonOKF_cons, Bool.and_eq_true] at hok
  have hv : v ≠ .vUndefined := jsonOK_ne_undef v hok.1
  cases fs with
  | nil =>
    refine ⟨':' :: strChars v, ?_⟩
    rw [stringifyMembers_single_chars k v hv]
    simp [quoteStr]
  | cons g rest =>
    obtain ⟨l, w⟩ := g
    have hw : w ≠ .vUndefined := by
      rw [jsonOKF_cons, Bool.and_eq_true] at hok
      exact jsonOK_ne_undef w hok.2.1
    refine ⟨':' :: strChars v ++ ',' :: (stringifyMembers ((l, w) :: rest)).toList, ?_⟩
    rw [stringifyMembers_cons2_chars k v l w rest hv hw]
    simp [quoteStr]


theorem mk_data (s : String) : String.mk s.data = s := by
  cases s
  rfl

theorem parseElems_succ (fuel : Nat) (cs : List Char) :
    parseElems (fuel + 1) cs =
      (match parseJ fuel cs with
       | none => none
       | some (v, rest) =>
         match skipWs rest with
         | [] => none
         | c :: rest2 =>
           if c = ',' then (parseElems fuel rest2).map (fun p => (v :: p.1, p.2))
           else if c = ']' then some ([v], rest2)
           else none) := by
  rw [parseElems.eq_def]

theorem parseMembers_succ (fuel : Nat) (cs : List Char) :
    parseMembers (fuel + 1) cs =
      (match skipWs cs with
       | [] => none
       | c :: cs1 =>
         if c = '"' then
           match parseStrBody cs1 with
           | none => none
           | some (kcs, rest2) =>
             match skipWs rest2 with
             | [] => none
             | d :: rest3 =>
               if d = ':' then
                 match parseJ fuel rest3 with
                 | none => none
                 | some (v, rest4) =>
                   match skipWs rest4 with
                   | [] => none
                   | e :: rest5 =>
                     if e = ',' then
                       (parseMembers fuel rest5).map (fun p => ((String.mk kcs, v) :: p.1, p.2))
                     else if e = '\x7d' then some ([(String.mk kcs, v)], rest5)
                     else none
               else none
         else none) := by
  rw [parseMembers.eq_def]

theorem parse_rt : ∀ fuel : Nat,
    (∀ v rest, jsonOK v = true → restOKb rest = true → fuelW v ≤ fuel →
      parseJ fuel (strChars v ++ rest) = some (v, rest)) ∧
    (∀ xs rest, xs ≠ [] → jsonOKL xs = true → fuelE xs ≤ fuel →
      parseElems fuel ((stringifyElems xs).toList ++ ']' :: rest) = some (xs, rest)) ∧
    (∀ fs rest, fs ≠ [] → jsonOKF fs = true → fuelM fs ≤ fuel →
      parseMembers fuel ((stringifyMembers fs).toList ++ '\x7d' :: rest) = some (fs, rest)) := by
  intro fuel
  induction fuel with
  | zero =>
    refine ⟨?_, ?_, ?_⟩
    · intro v rest _ _ hfuel
      have := fuelW_pos v
      omega
    · intro xs rest _ _ hfuel
      have := fuelE_pos xs
      omega
    · intro fs rest _ _ hfuel
      have := fuelM_pos fs
      omega
  | succ fuel ih =>
    obtain ⟨ihP, ihE, ihM⟩ := ih
    refine ⟨?_, ?_, ?_⟩
    · intro v rest hok hrest hfuel
      cases v with
      | vNull =>
        rw [strChars_null, parseJ.eq_def]
        simp [skipWs, isJsonWs]
      | vUndefined =>
        rw [jsonOK_undef] at hok
        cases hok
      | vDate iso =>
        rw [jsonOK_date] at hok
        cases hok
      | vBool b =>
        cases b with
        | true =>
          rw [strChars_true, parseJ.eq_def]
          simp [skipWs, isJsonWs]
        | false =>
          rw [strChars_false, parseJ.eq_def]
          simp [skipWs, isJsonWs]
      | vNum n =>
        rw [strChars_num]
        obtain ⟨c, cs, hI, hcd⟩ := intStr_head n
        obtain ⟨hws, hn1, ht1, hf1, hq1, hb1, hbr1⟩ := digit_head_facts c hcd
        have hs1 : c ≠ ' ' := fun h => by simp [isJsonWs, h] at hws
        have hs2 : c ≠ '\t' := fun h => by simp [isJsonWs, h] at hws
        have hs3 : c ≠ '\n' := fun h => by simp [isJsonWs, h] at hws
        have hs4 : c ≠ '\x0d' := fun h => by simp [isJsonWs, h] at hws
        rw [hI, parseJ.eq_def]
        simp only [List.cons_append]
        simp [skipWs, isJsonWs, hs1, hs2, hs3, hs4, hn1, ht1, hf1, hq1, hb1, hbr1]
        rw [← List.cons_append, ← hI, parseIntTok_intStr n rest hrest]
      | vStr s =>
        rw [strChars_str]
        show parseJ (fuel + 1) (('"' :: (escapeChars s.toList ++ ['"'])) ++ rest) = _
        rw [parseJ.eq_def]
        simp only [List.cons_append, List.append_assoc, List.singleton_append]
        simp [skipWs, isJsonWs]
        rw [parseStrBody_escape]
        simp [mk_toList, mk_data]
      | vArr xs =>
        cases xs with
        | nil =>
          rw [show strChars (.vArr []) = ['[', ']'] from rfl, parseJ.eq_def]
          simp [skipWs, isJsonWs]
        | cons x xs =>
          rw [strChars_arr, parseJ.eq_def]
          simp only [List.cons_append, List.append_assoc, List.singleton_append]
          obtain ⟨c, cs, hEh, hws, hrb, hbb⟩ := stringifyElems_head (x :: xs) (by simp)
          have hEh2 : (stringifyElems (x :: xs)).data = c :: cs := hEh
          have hs1 : c ≠ ' ' := fun h => by simp [isJsonWs, h] at hws
          have hs2 : c ≠ '\t' := fun h => by simp [isJsonWs, h] at hws
          have hs3 : c ≠ '\n' := fun h => by simp [isJsonWs, h] at hws
          have hs4 : c ≠ '\x0d' := fun h => by simp [isJsonWs, h] at hws
          simp [skipWs, isJsonWs, hEh2, hs1, hs2, hs3, hs4, hrb, List.cons_append]
          rw [jsonOK_arr] at hok
          rw [fuelW_arr_cons] at hfuel
          have hE : parseElems fuel ((stringifyElems (x :: xs)).data ++ ']' :: rest)
              = some (x :: xs, rest) := ihE (x :: xs) rest (by simp) hok (by omega)
          rw [hEh2] at hE
          simp only [List.cons_append] at hE
          rw [hE]
      | vObj fs =>
        cases fs with
        | nil =>
          rw [show strChars (.vObj []) = ['\x7b', '\x7d'] from rfl, parseJ.eq_def]
          simp [skipWs, isJsonWs]
        | cons f fs =>
          obtain ⟨k, v⟩ := f
          rw [strChars_obj, parseJ.eq_def]
          simp only [List.cons_append, List.append_assoc, List.singleton_append]
          rw [jsonOK_obj, Bool.and_eq_true] at hok
          obtain ⟨cs, hMh⟩ := stringifyMembers_head k v fs hok.2
          have hMh2 : (stringifyMembers ((k, v) :: fs)).data
              = '"' :: (escapeChars k.data ++ '"' :: cs) := hMh
          simp [skipWs, isJsonWs, hMh2, List.cons_append]
          rw [fuelW_obj_cons] at hfuel
          have hM : parseMembers fuel ((stringifyMembers ((k, v) :: fs)).data ++ '\x7d' :: rest)
              = some ((k, v) :: fs, rest) := ihM ((k, v) :: fs) rest (by simp) hok.2 (by omega)
          rw [hMh2] at hM
          simp only [List.cons_append, List.append_assoc] at hM
          rw [hM]
          simp [objSetAll_self _ hok.1]
    · intro xs rest hne hok hfuel
      cases xs with
      | nil => exact absurd rfl hne
      | cons x xs =>
        rw [jsonOKL_cons, Bool.and_eq_true] at hok
        cases xs with
        | nil =>
          rw [stringifyElems_single, parseElems_succ]
          rw [fuelE_single] at hfuel
          rw [ihP x (']' :: rest) hok.1 (by rfl) (by omega)]
          simp [skipWs, isJsonWs]
        | cons y r =>
          rw [stringifyElems_cons2, parseElems_succ]
          simp only [List.append_assoc, List.cons_append]
          rw [fuelE_cons2] at hfuel
          have hmx1 : fuelW x ≤ max (fuelW x) (fuelE (y :: r)) := le_max_left _ _
          have hmx2 : fuelE (y :: r) ≤ max (fuelW x) (fuelE (y :: r)) := le_max_right _ _
          rw [ihP x (',' :: ((stringifyElems (y :: r)).toList ++ ']' :: rest)) hok.1
            (by rfl) (by omega)]
          simp [skipWs, isJsonWs]
          have hE : parseElems fuel ((stringifyElems (y :: r)).data ++ ']' :: rest)
              = some (y :: r, rest) := ihE (y :: r) rest (by simp) hok.2 (by omega)
          rw [hE]
    · intro fs rest hne hok hfuel
      cases fs with
      | nil => exact absurd rfl hne
      | cons f fs =>
        obtain ⟨k, v⟩ := f
        have hok2 := hok
        rw [jsonOKF_cons, Bool.and_eq_true] at hok2
        have hv : v ≠ .vUndefined := jsonOK_ne_undef v hok2.1
        cases fs with
        | nil =>
          rw [stringifyMembers_single_chars k v hv, parseMembers_succ]
          simp only [quoteStr, List.cons_append, List.append_assoc, List.singleton_append]
          simp [skipWs, isJsonWs]
          rw [parseStrBody_escape]
          simp [skipWs, isJsonWs]
          rw [fuelM_single] at hfuel
          rw [ihP v ('\x7d' :: rest) hok2.1 (by rfl) (by omega)]
          simp [skipWs, isJsonWs, mk_toList, mk_data]
        | cons g rfs =>
          obtain ⟨l, w⟩ := g
          have hw : w ≠ .vUndefined := by
            have h3 := hok2.2
            rw [jsonOKF_cons, Bool.and_eq_true] at h3
            exact jsonOK_ne_undef w h3.1
          rw [stringifyMembers_cons2_chars k v l w rfs hv hw, parseMembers_succ]
          simp only [quoteStr, List.cons_append, List.append_assoc, List.singleton_append]
          simp [skipWs, isJsonWs]
          rw [parseStrBody_escape]
          simp [skipWs, isJsonWs]
          rw [fuelM_cons2] at hfuel
          have hmx1 : fuelW v ≤ max (fuelW v) (fuelM ((l, w) :: rfs)) := le_max_left _ _
          have hmx2 : fuelM ((l, w) :: rfs) ≤ max (fuelW v) (fuelM ((l, w) :: rfs)) :=
            le_max_right _ _
          have hP : parseJ fuel
              (strChars v ++ ',' :: ((stringifyMembers ((l, w) :: rfs)).data ++ '\x7d' :: rest))
              = some (v, ',' :: ((stringifyMembers ((l, w) :: rfs)).data ++ '\x7d' :: rest)) :=
            ihP v _ hok2.1 (by rfl) (by omega)
          rw [hP]
          simp [skipWs, isJsonWs]
          have hM : parseMembers fuel ((stringifyMembers ((l, w) :: rfs)).data ++ '\x7d' :: rest)
              = some ((l, w) :: rfs, rest) := ihM ((l, w) :: rfs) rest (by simp) hok2.2 (by omega)
          rw [hM]

mutual

theorem fuelW_le : ∀ v : JSValue, jsonOK v = true → fuelW v ≤ (strChars v).length
  | .vNull, _ => by decide
  | .vUndefined, h => by rw [jsonOK_undef] at h; cases h
  | .vDate iso, h => by rw [jsonOK_date] at h; cases h
  | .vBool b, _ => by cases b <;> decide
  | .vNum n, _ => by
    obtain ⟨c, cs, hI, -⟩ := intStr_head n
    rw [strChars_num, hI]
    show 1 ≤ (c :: cs).length
    simp
  | .vStr s, _ => by
    rw [strChars_str]
    show 1 ≤ (quoteStr s).length
    simp [quoteStr]
  | .vArr [], _ => by decide
  | .vArr (x :: xs), h => by
    rw [jsonOK_arr] at h
    have hE := fuelE_le (x :: xs) h
    rw [fuelW_arr_cons, strChars_arr]
    simp only [List.length_cons, List.length_append]
    omega
  | .vObj [], _ => by decide
  | .vObj (f :: fs), h => by
    rw [jsonOK_obj, Bool.and_eq_true] at h
    have hM := fuelM_le (f :: fs) h.2
    rw [fuelW_obj_cons, strChars_obj]
    simp only [List.length_cons, List.length_append]
    omega

theorem fuelE_le : ∀ xs : List JSValue,
    jsonOKL xs = true → fuelE xs ≤ (stringifyElems xs).toList.length + 1
  | [], _ => by decide
  | [x], h => by
    rw [jsonOKL_cons, Bool.and_eq_true] at h
    have hW := fuelW_le x h.1
    rw [fuelE_single, stringifyElems_single]
    omega
  | x :: y :: r, h => by
    rw [jsonOKL_cons, Bool.and_eq_true] at h
    have hW := fuelW_le x h.1
    have hE := fuelE_le (y :: r) h.2
    rw [fuelE_cons2, stringifyElems_cons2]
    simp only [List.length_append, List.length_cons]
    have hmax : max (fuelW x) (fuelE (y :: r))
        ≤ (strChars x).length + ((stringifyElems (y :: r)).toList.length + 1) :=
      max_le (by omega) (by omega)
    omega

theorem fuelM_le : ∀ fs : List (String × JSValue),
    jsonOKF fs = true → fuelM fs ≤ (stringifyMembers fs).toList.length + 1
  | [], _ => by decide
  | [(k, v)], h => by
    rw [jsonOKF_cons, Bool.and_eq_true] at h
    have hv := jsonOK_ne_undef v h.1
    have hW := fuelW_le v h.1
    rw [fuelM_single, stringifyMembers_single_chars k v hv]
    simp only [List.length_append, List.length_cons]
    omega
  | (k, v) :: (l, w) :: rfs, h => by
    rw [jsonOKF_cons, Bool.and_eq_true] at h
    have hv := jsonOK_ne_undef v h.1
    have h2 := h.2
    rw [jsonOKF_cons, Bool.and_eq_true] at h2
    have hw := jsonOK_ne_undef w h2.1
    have hW := fuelW_le v h.1
    have hM := fuelM_le ((l, w) :: rfs) h.2
    rw [fuelM_cons2, stringifyMembers_cons2_chars k v l w rfs hv hw]
    simp only [List.length_append, List.length_cons]
    have hmax : max (fuelW v) (fuelM ((l, w) :: rfs))
        ≤ (strChars v).length
          + (1 + ((stringifyMembers ((l, w) :: rfs)).toList.length + 1)) :=
      max_le (by omega) (by omega)
    omega

end

theorem jsonParse_stringify (v : JSValue) (h : jsonOK v = true) :
    jsonParse (jsonStringify v) = some v := by
  have hrt := (parse_rt ((strChars v).length + 1)).1 v [] h (by rfl)
    (le_trans (fuelW_le v h) (by omega))
  rw [List.append_nil] at hrt
  show (match parseJ ((strChars v).length + 1) (strChars v) with
       | some (v, rest) => if skipWs rest = [] then some v else none
       | none => none) = some v
  rw [hrt]
  simp [skipWs]

/- A size measure on modelled values, used to drive the round-trip
induction (arrays are leaves for `flatten`, so they count as size one). -/
mutual

def sizeV : JSValue → Nat
  | .vObj fs => 1 + sizeF fs
  | _ => 1

def sizeF : List (String × JSValue) → Nat
  | [] => 0
  | (_, v) :: rest => 1 + sizeV v + sizeF rest

end

theorem sizeV_obj (fs : List (String × JSValue)) : sizeV (.vObj fs) = 1 + sizeF fs := by
  rw [sizeV.eq_def]

theorem sizeF_cons (k : String) (v : JSValue) (rest : List (String × JSValue)) :
    sizeF ((k, v) :: rest) = 1 + sizeV v + sizeF rest := by
  rw [sizeF.eq_def]

theorem sizeV_pos (v : JSValue) : 1 ≤ sizeV v := by
  cases v <;> simp [sizeV.eq_def]

theorem objGet_fresh_none (o : Obj) (k : String) (h : k ∉ keysOf o) :
    objGet o k = none := by
  induction o with
  | nil => rfl
  | cons e rest ih =>
    obtain ⟨q, w⟩ := e
    simp only [keysOf, List.map_cons, List.mem_cons, not_or] at h
    simp only [objGet, if_neg (Ne.symm h.1)]
    exact ih (by simpa [keysOf] using h.2)

theorem objGet_append_last (o : Obj) (k : String) (x : JSValue) (h : k ∉ keysOf o) :
    objGet (o ++ [(k, x)]) k = some x := by
  induction o with
  | nil => simp [objGet]
  | cons e rest ih =>
    obtain ⟨q, w⟩ := e
    simp only [keysOf, List.map_cons, List.mem_cons, not_or] at h
    simp only [List.cons_append, objGet, if_neg (Ne.symm h.1)]
    exact ih (by simpa [keysOf] using h.2)

theorem objSet_append_last (o : Obj) (k : String) (x y : JSValue) (h : k ∉ keysOf o) :
    objSet (o ++ [(k, x)]) k y = o ++ [(k, y)] := by
  induction o with
  | nil => simp [objSet]
  | cons e rest ih =>
    obtain ⟨q, w⟩ := e
    simp only [keysOf, List.map_cons, List.mem_cons, not_or] at h
    simp only [List.cons_append, objSet, if_neg (Ne.symm h.1), List.append_eq]
    rw [ih (by simpa [keysOf] using h.2)]

theorem splitDotsC_no_dot (cs : List Char) (h : '.' ∉ cs) : splitDotsC cs = [cs] := by
  induction cs with
  | nil => rfl
  | cons c cs ih =>
    simp only [List.mem_cons, not_or] at h
    rw [splitDotsC.eq_def]
    simp only [if_neg (Ne.symm h.1), ih h.2]

theorem splitDotsC_append_dot (s t : List Char) (h : '.' ∉ s) :
    splitDotsC (s ++ '.' :: t) = s :: splitDotsC t := by
  induction s with
  | nil => rw [List.nil_append, splitDotsC.eq_def]; simp
  | cons c cs ih =>
    simp only [List.mem_cons, not_or] at h
    rw [List.cons_append, splitDotsC.eq_def]
    simp only [if_neg (Ne.symm h.1), ih h.2]

theorem splitJoinC : ∀ css : List (List Char), css ≠ [] → (∀ s ∈ css, '.' ∉ s) →
    splitDotsC (joinDotsC css) = css
  | [], h, _ => absurd rfl h
  | [s], _, hd => by
    rw [joinDotsC.eq_def]
    exact splitDotsC_no_dot s (hd s (by simp))
  | s :: t :: rest, _, hd => by
    rw [joinDotsC.eq_def]
    rw [splitDotsC_append_dot s (joinDotsC (t :: rest)) (hd s (by simp))]
    rw [splitJoinC (t :: rest) (by simp) (fun u hu => hd u (by simp [hu]))]

theorem keyOK_no_dot (k : String) (h : keyOK k = true) : '.' ∉ k.toList := by
  simp only [keyOK, Bool.and_eq_true, Bool.not_eq_true'] at h
  intro hmem
  rw [← List.elem_iff, show (List.elem '.' k.toList) = (k.toList.contains '.') from rfl,
    h.2] at hmem
  cases hmem

theorem keyOK_ne_empty (k : String) (h : keyOK k = true) : k ≠ "" := by
  simp only [keyOK, Bool.and_eq_true, decide_eq_true_eq] at h
  exact h.1

theorem splitDots_joinSegs (segs : List String) (hne : segs ≠ [])
    (hok : ∀ s ∈ segs, keyOK s = true) : splitDots (joinSegs segs) = segs := by
  unfold splitDots joinSegs
  rw [toList_mk]
  rw [splitJoinC (segs.map String.toList) (by simpa using hne)
    (by
      intro s hs
      simp only [List.mem_map] at hs
      obtain ⟨u, hu, rfl⟩ := hs
      exact keyOK_no_dot u (hok u hu))]
  rw [List.map_map]
  have : (String.mk ∘ String.toList) = id := by
    funext s
    exact mk_toList s
  rw [this, List.map_id]

theorem joinSegs_inj (a b : List String) (ha : a ≠ []) (hb : b ≠ [])
    (hoka : ∀ s ∈ a, keyOK s = true) (hokb : ∀ s ∈ b, keyOK s = true)
    (h : joinSegs a = joinSegs b) : a = b := by
  have := congrArg splitDots h
  rwa [splitDots_joinSegs a ha hoka, splitDots_joinSegs b hb hokb] at this

theorem mk_append (a b : List Char) : String.mk (a ++ b) = String.mk a ++ String.mk b := rfl

theorem joinDotsC_append_single : ∀ (as : List (List Char)) (b : List Char), as ≠ [] →
    joinDotsC (as ++ [b]) = joinDotsC as ++ '.' :: b
  | [], _, h => absurd rfl h
  | [a], b, _ => by
    rw [List.cons_append, List.nil_append, joinDotsC.eq_def]
    show a ++ '.' :: joinDotsC [b] = a ++ '.' :: b
    rw [show joinDotsC [b] = b from by rw [joinDotsC.eq_def]]
  | a :: a2 :: rest, b, _ => by
    rw [List.cons_append, joinDotsC.eq_def]
    show a ++ '.' :: joinDotsC ((a2 :: rest) ++ [b]) = joinDotsC (a :: a2 :: rest) ++ '.' :: b
    rw [joinDotsC_append_single (a2 :: rest) b (by simp)]
    rw [show joinDotsC (a :: a2 :: rest) = a ++ '.' :: joinDotsC (a2 :: rest) from by
      rw [joinDotsC.eq_def]]
    simp

theorem joinSegs_single (k : String) : joinSegs [k] = k := by
  unfold joinSegs
  rw [show (([k].map String.toList) : List (List Char)) = [k.toList] from rfl]
  rw [show joinDotsC [k.toList] = k.toList from by rw [joinDotsC.eq_def]]
  exact mk_toList k

theorem joinSegs_snoc (ps : List String) (k : String) (h : ps ≠ []) :
    joinSegs (ps ++ [k]) = joinSegs ps ++ "." ++ k := by
  unfold joinSegs
  rw [List.map_append]
  rw [show ([k].map String.toList : List (List Char)) = [k.toList] from rfl]
  rw [joinDotsC_append_single (ps.map String.toList) k.toList (by simpa using h)]
  rw [show ('.' :: k.toList) = ['.'] ++ k.toList from rfl, ← List.append_assoc, mk_append,
    mk_append]
  rw [show String.mk ['.'] = "." from rfl, mk_toList]

theorem joinSegs_ne_empty (ps : List String) (h : ps ≠ [])
    (hok : ∀ s ∈ ps, keyOK s = true) : joinSegs ps ≠ "" := by
  apply string_ne_empty_of_toList
  unfold joinSegs
  rw [toList_mk]
  cases ps with
  | nil => exact absurd rfl h
  | cons p ps =>
    have hp : p.toList ≠ [] := by
      intro he
      exact keyOK_ne_empty p (hok p (by simp)) (by cases p; simp at he; simp [he])
    cases ps with
    | nil =>
      rw [show ((p :: []).map String.toList : List (List Char)) = [p.toList] from rfl]
      rw [show joinDotsC [p.toList] = p.toList from by rw [joinDotsC.eq_def]]
      exact hp
    | cons q ps =>
      rw [show ((p :: q :: ps).map String.toList : List (List Char))
        = p.toList :: (q :: ps).map String.toList from rfl]
      rw [show joinDotsC (p.toList :: (q :: ps).map String.toList)
        = p.toList ++ '.' :: joinDotsC ((q :: ps).map String.toList) from by
          rw [joinDotsC.eq_def]
          cases hq : (q :: ps).map String.toList with
          | nil => simp at hq
          | cons a as => rfl]
      simp [hp]

theorem segEntries_cons_obj (k : String) (g : String × JSValue)
    (gs rest : List (String × JSValue)) :
    segEntries ((k, .vObj (g :: gs)) :: rest)
      = (segEntries (g :: gs)).map (fun e => (k :: e.1, e.2)) ++ segEntries rest := by
  rw [segEntries.eq_def]

theorem goodVal_obj (fs : List (String × JSValue)) :
    goodVal (.vObj fs) = (nodupKeys fs && goodFields fs) := by
  rw [goodVal.eq_def]

theorem goodFields_cons (k : String) (v : JSValue) (fs : List (String × JSValue)) :
    goodFields ((k, v) :: fs) = (keyOK k && goodVal v && goodFields fs) := by
  rw [goodFields.eq_def]

theorem segEntries_good_aux : ∀ n : Nat, ∀ fs : List (String × JSValue), sizeF fs ≤ n →
    goodFields fs = true → ∀ e ∈ segEntries fs, e.1 ≠ [] ∧ ∀ s ∈ e.1, keyOK s = true := by
  intro n
  induction n with
  | zero =>
    intro fs hsz
    cases fs with
    | nil => intro _ e he; rw [segEntries.eq_def] at he; cases he
    | cons f rest =>
      obtain ⟨k, v⟩ := f
      rw [sizeF_cons] at hsz
      omega
  | succ n ih =>
    intro fs hsz h e he
    cases fs with
    | nil => rw [segEntries.eq_def] at he; cases he
    | cons f rest =>
      obtain ⟨k, v⟩ := f
      rw [sizeF_cons] at hsz
      rw [goodFields_cons, Bool.and_eq_true, Bool.and_eq_true] at h
      have hrest := ih rest (by omega) h.2
      rw [segEntries.eq_def] at he
      rcases v with - | - | b | num | s | iso | xs | fs0
      case vObj =>
        cases fs0 with
        | nil =>
          simp only [List.singleton_append, List.mem_cons] at he
          rcases he with rfl | he
          · exact ⟨by simp, by simpa using h.1.1⟩
          · exact hrest e he
        | cons g gs =>
          simp only [List.mem_append, List.mem_map] at he
          rcases he with ⟨e0, he0, rfl⟩ | he
          · have hgood : goodFields (g :: gs) = true := by
              have := h.1.2
              rw [goodVal_obj, Bool.and_eq_true] at this
              exact this.2
            have hsz0 : sizeF (g :: gs) ≤ n := by
              rw [sizeV_obj] at hsz
              omega
            obtain ⟨hne0, hok0⟩ := ih (g :: gs) hsz0 hgood e0 he0
            refine ⟨by simp, ?_⟩
            intro s hs
            simp only [List.mem_cons] at hs
            rcases hs with rfl | hs
            · exact h.1.1
            · exact hok0 s hs
          · exact hrest e he
      all_goals
        simp only [List.singleton_append, List.mem_cons] at he
        rcases he with rfl | he
        · exact ⟨by simp, by simpa using h.1.1⟩
        · exact hrest e he

theorem segEntries_good (fs : List (String × JSValue)) (h : goodFields fs = true) :
    ∀ e ∈ segEntries fs, e.1 ≠ [] ∧ ∀ s ∈ e.1, keyOK s = true :=
  segEntries_good_aux (sizeF fs) fs (le_refl _) h

theorem segEntries_ne_nil : ∀ fs : List (String × JSValue), fs ≠ [] →
    goodFields fs = true → segEntries fs ≠ [] := by
  have main : ∀ n : Nat, ∀ fs : List (String × JSValue), sizeF fs ≤ n → fs ≠ [] →
      goodFields fs = true → segEntries fs ≠ [] := by
    intro n
    induction n with
    | zero =>
      intro fs hsz hne
      cases fs with
      | nil => exact absurd rfl hne
      | cons f rest =>
        obtain ⟨k, v⟩ := f
        rw [sizeF_cons] at hsz
        omega
    | succ n ih =>
      intro fs hsz hne h
      cases fs with
      | nil => exact absurd rfl hne
      | cons f rest =>
        obtain ⟨k, v⟩ := f
        rw [sizeF_cons] at hsz
        rw [goodFields_cons, Bool.and_eq_true, Bool.and_eq_true] at h
        rw [segEntries.eq_def]
        rcases v with - | - | b | num | s | iso | xs | fs0
        case vObj =>
          cases fs0 with
          | nil => simp
          | cons g gs =>
            have hgood : goodFields (g :: gs) = true := by
              have := h.1.2
              rw [goodVal_obj, Bool.and_eq_true] at this
              exact this.2
            have hsz0 : sizeF (g :: gs) ≤ n := by
              rw [sizeV_obj] at hsz
              omega
            have := ih (g :: gs) hsz0 (by simp) hgood
            simp only [ne_eq, List.append_eq_nil, List.map_eq_nil_iff, not_and]
            intro hmap
            exact absurd hmap this
        all_goals simp
  intro fs
  exact main (sizeF fs) fs (le_refl _)

theorem segEntries_head : ∀ fs : List (String × JSValue),
    ∀ e ∈ segEntries fs, ∃ k t, e.1 = k :: t ∧ k ∈ keysOf fs := by
  intro fs
  induction fs with
  | nil => intro e he; rw [segEntries.eq_def] at he; cases he
  | cons f rest ih =>
    obtain ⟨k, v⟩ := f
    intro e he
    rw [segEntries.eq_def] at he
    rcases v with - | - | b | num | s | iso | xs | fs0
    case vObj =>
      cases fs0 with
      | nil =>
        simp only [List.singleton_append, List.mem_cons] at he
        rcases he with rfl | he
        · exact ⟨k, [], rfl, by simp [keysOf]⟩
        · obtain ⟨q, t, ht, hq⟩ := ih e he
          exact ⟨q, t, ht, by simp [keysOf] at hq ⊢; exact Or.inr hq⟩
      | cons g gs =>
        simp only [List.mem_append, List.mem_map] at he
        rcases he with ⟨e0, he0, rfl⟩ | he
        · exact ⟨k, e0.1, rfl, by simp [keysOf]⟩
        · obtain ⟨q, t, ht, hq⟩ := ih e he
          exact ⟨q, t, ht, by simp [keysOf] at hq ⊢; exact Or.inr hq⟩
    all_goals
      simp only [List.singleton_append, List.mem_cons] at he
      rcases he with rfl | he
      · exact ⟨k, [], rfl, by simp [keysOf]⟩
      · obtain ⟨q, t, ht, hq⟩ := ih e he
        exact ⟨q, t, ht, by simp [keysOf] at hq ⊢; exact Or.inr hq⟩

theorem parseValue_leafEnc (v : JSValue) (h : goodVal v = true)
    (hno : ∀ g gs, v ≠ .vObj (g :: gs)) : parseValue (leafEnc v) = v := by
  rcases v with - | - | b | n | s | iso | xs | fs0
  case vNull => rfl
  case vUndefined => rw [goodVal.eq_def] at h; cases h
  case vDate => rw [goodVal.eq_def] at h; cases h
  case vBool => rfl
  case vNum => rfl
  case vStr =>
    rw [goodVal.eq_def] at h
    exact (beqV_iff _ _).mp h
  case vObj =>
    cases fs0 with
    | nil => rfl
    | cons g gs => exact absurd rfl (hno g gs)
  case vArr =>
    rw [goodVal.eq_def] at h
    have hS : (jsonStringify (.vArr xs)).toList = '[' :: (stringifyElems xs).toList ++ [']'] :=
      strChars_arr xs
    show parseValue (.vStr (jsonStringify (.vArr xs))) = .vArr xs
    rw [parseValue.eq_def]
    simp only []
    rw [if_neg (string_ne_empty_of_toList _ (by rw [hS]; simp))]
    rw [if_neg (show ¬jsonStringify (.vArr xs) = "\x7b\x7d" from by
      intro he
      have := congrArg String.toList he
      rw [hS] at this
      simp at this)]
    rw [if_pos (show (headIs (jsonStringify (.vArr xs)) '[' &&
          lastIs (jsonStringify (.vArr xs)) ']' ||
        (headIs (jsonStringify (.vArr xs)) '\x7b' &&
          lastIs (jsonStringify (.vArr xs)) '\x7d')) = true from by
      rw [Bool.or_eq_true, Bool.and_eq_true]
      refine Or.inl ⟨?_, ?_⟩
      · unfold headIs
        rw [hS]
        simp
      · unfold lastIs
        rw [hS]
        simp)]
    rw [jsonParse_stringify (.vArr xs) (by rw [jsonOK_arr]; exact h)]

theorem nodupKeys_cons_parts (k : String) (v : JSValue) (rest : Obj)
    (h : nodupKeys ((k, v) :: rest) = true) :
    k ∉ keysOf rest ∧ nodupKeys rest = true := by
  rw [nodupKeys_cons, Bool.and_eq_true, Bool.not_eq_true'] at h
  refine ⟨?_, h.2⟩
  intro hmem
  rw [(contains_iff_mem _ _).mpr hmem] at h
  cases h.1

theorem prefix_if_eq (ps : List String) (k : String)
    (hps : ∀ s ∈ ps, keyOK s = true) :
    (if joinSegs ps = "" then k else joinSegs ps ++ "." ++ k) = joinSegs (ps ++ [k]) := by
  cases ps with
  | nil =>
    rw [if_pos (by decide), List.nil_append, joinSegs_single]
  | cons p ps' =>
    rw [if_neg (joinSegs_ne_empty (p :: ps') (by simp) hps),
      joinSegs_snoc (p :: ps') k (by simp)]

theorem flattenFields_leaf_acc
    (n : Nat)
    (IH : ∀ fs ps res, sizeF fs ≤ n → nodupKeys fs = true → goodFields fs = true →
      (∀ s ∈ ps, keyOK s = true) →
      (∀ e ∈ segEntries fs, joinSegs (ps ++ e.1) ∉ keysOf res) →
      flattenFields fs (joinSegs ps) res
        = res ++ (segEntries fs).map (fun e => (joinSegs (ps ++ e.1), e.2)))
    (k : String) (v : JSValue) (rest : List (String × JSValue))
    (ps : List String) (res : Obj)
    (hsz : sizeF rest ≤ n)
    (hnd : nodupKeys ((k, v) :: rest) = true)
    (hgf : goodFields ((k, v) :: rest) = true)
    (hps : ∀ s ∈ ps, keyOK s = true)
    (hfresh : ∀ e ∈ segEntries ((k, v) :: rest), joinSegs (ps ++ e.1) ∉ keysOf res)
    (hseg : segEntries ((k, v) :: rest) = ([k], leafEnc v) :: segEntries rest)
    (hflat : flattenFields ((k, v) :: rest) (joinSegs ps) res
      = flattenFields rest (joinSegs ps)
          (objSet res (if joinSegs ps = "" then k
            else joinSegs ps ++ "." ++ k) (leafEnc v))) :
    flattenFields ((k, v) :: rest) (joinSegs ps) res
      = res ++ (segEntries ((k, v) :: rest)).map (fun e => (joinSegs (ps ++ e.1), e.2)) := by
  rw [goodFields_cons, Bool.and_eq_true, Bool.and_eq_true] at hgf
  obtain ⟨⟨hk, hgv⟩, hgr⟩ := hgf
  obtain ⟨hkn, hndr⟩ := nodupKeys_cons_parts k v rest hnd
  rw [hflat, prefix_if_eq ps k hps]
  have hfr0 : joinSegs (ps ++ [k]) ∉ keysOf res := by
    have := hfresh ([k], leafEnc v) (by rw [hseg]; exact List.mem_cons_self _ _)
    simpa using this
  rw [objSet_fresh res _ _ hfr0]
  rw [IH rest ps (res ++ [(joinSegs (ps ++ [k]), leafEnc v)]) hsz hndr hgr hps ?_]
  · rw [hseg]
    simp [List.append_assoc]
  · intro e he
    obtain ⟨hne, hoke⟩ := segEntries_good rest hgr e he
    obtain ⟨k', t', ht', hk'⟩ := segEntries_head rest e he
    simp only [keysOf, List.map_append, List.mem_append, List.map_cons, List.map_nil,
      List.mem_singleton, not_or]
    constructor
    · exact hfresh e (by rw [hseg]; exact List.mem_cons_of_mem _ he)
    · intro heq
      have hinj := joinSegs_inj (ps ++ e.1) (ps ++ [k]) (by simp [hne]) (by simp)
        (by
          intro s hs
          rcases List.mem_append.mp hs with h1 | h1
          · exact hps s h1
          · exact hoke s h1)
        (by
          intro s hs
          rcases List.mem_append.mp hs with h1 | h1
          · exact hps s h1
          · simp at h1
            subst h1
            exact hk)
        heq
      have he1 : e.1 = [k] := by
        have := congrArg (List.drop ps.length) hinj
        simpa [List.drop_left] using this
      rw [ht'] at he1
      simp only [List.cons.injEq] at he1
      rw [he1.1] at hk'
      exact hkn hk'

theorem flattenFields_acc : ∀ n : Nat, ∀ (fs : List (String × JSValue)) (ps : List String)
    (res : Obj),
    sizeF fs ≤ n → nodupKeys fs = true → goodFields fs = true →
    (∀ s ∈ ps, keyOK s = true) →
    (∀ e ∈ segEntries fs, joinSegs (ps ++ e.1) ∉ keysOf res) →
    flattenFields fs (joinSegs ps) res
      = res ++ (segEntries fs).map (fun e => (joinSegs (ps ++ e.1), e.2)) := by
  intro n
  induction n with
  | zero =>
    intro fs ps res hsz
    cases fs with
    | nil =>
      intro _ _ _ _
      rw [show flattenFields [] (joinSegs ps) res = res from rfl, segEntries.eq_def]
      simp
    | cons f rest =>
      obtain ⟨k, v⟩ := f
      rw [sizeF_cons] at hsz
      have := sizeV_pos v
      omega
  | succ n ih =>
    intro fs ps res hsz hnd hgf hps hfresh
    cases fs with
    | nil =>
      rw [show flattenFields [] (joinSegs ps) res = res from rfl, segEntries.eq_def]
      simp
    | cons f rest =>
      obtain ⟨k, v⟩ := f
      rw [sizeF_cons] at hsz
      rcases v with - | - | b | num | s | iso | xs | fs0
      case vNull =>
        exact flattenFields_leaf_acc n ih k .vNull rest ps res (by omega) hnd hgf hps hfresh
          (by rw [segEntries.eq_def]; rfl) rfl
      case vUndefined =>
        rw [goodFields_cons, Bool.and_eq_true, Bool.and_eq_true] at hgf
        have hbad := hgf.1.2
        rw [show goodVal .vUndefined = false from rfl] at hbad
        cases hbad
      case vDate =>
        rw [goodFields_cons, Bool.and_eq_true, Bool.and_eq_true] at hgf
        have hbad := hgf.1.2
        rw [show goodVal (.vDate iso) = false from rfl] at hbad
        cases hbad
      case vBool =>
        exact flattenFields_leaf_acc n ih k (.vBool b) rest ps res (by omega) hnd hgf hps hfresh
          (by rw [segEntries.eq_def]; rfl) rfl
      case vNum =>
        exact flattenFields_leaf_acc n ih k (.vNum num) rest ps res (by omega) hnd hgf hps hfresh
          (by rw [segEntries.eq_def]; rfl) rfl
      case vStr =>
        exact flattenFields_leaf_acc n ih k (.vStr s) rest ps res (by omega) hnd hgf hps hfresh
          (by rw [segEntries.eq_def]; rfl) rfl
      case vArr =>
        exact flattenFields_leaf_acc n ih k (.vArr xs) rest ps res (by omega) hnd hgf hps hfresh
          (by rw [segEntries.eq_def]; rfl) rfl
      case vObj =>
        cases fs0 with
        | nil =>
          exact flattenFields_leaf_acc n ih k (.vObj []) rest ps res (by omega) hnd hgf hps
            hfresh (by rw [segEntries.eq_def]; rfl) rfl
        | cons g gs =>
          rw [goodFields_cons, Bool.and_eq_true, Bool.and_eq_true] at hgf
          obtain ⟨⟨hk, hgv⟩, hgr⟩ := hgf
          obtain ⟨hkn, hndr⟩ := nodupKeys_cons_parts k _ rest hnd
          rw [goodVal_obj, Bool.and_eq_true] at hgv
          have hflat : flattenFields ((k, .vObj (g :: gs)) :: rest) (joinSegs ps) res
              = flattenFields rest (joinSegs ps)
                  (flatten (.vObj (g :: gs))
                    (if joinSegs ps = "" then k else joinSegs ps ++ "." ++ k) res) := rfl
          rw [hflat, prefix_if_eq ps k hps]
          have hfl2 : flatten (.vObj (g :: gs)) (joinSegs (ps ++ [k])) res
              = flattenFields (g :: gs) (joinSegs (ps ++ [k])) res := rfl
          rw [hfl2]
          have hps' : ∀ s ∈ ps ++ [k], keyOK s = true := by
            intro s hs
            rcases List.mem_append.mp hs with h1 | h1
            · exact hps s h1
            · simp at h1
              subst h1
              exact hk
          have hsz0 : sizeF (g :: gs) ≤ n := by
            rw [sizeV_obj] at hsz
            omega
          have hfresh0 : ∀ e0 ∈ segEntries (g :: gs),
              joinSegs ((ps ++ [k]) ++ e0.1) ∉ keysOf res := by
            intro e0 he0
            have hmem : ((k :: e0.1, e0.2) : List String × JSValue)
                ∈ segEntries ((k, .vObj (g :: gs)) :: rest) := by
              rw [segEntries_cons_obj]
              simp only [List.mem_append, List.mem_map]
              exact Or.inl ⟨e0, he0, rfl⟩
            have := hfresh _ hmem
            simpa [List.append_assoc] using this
          rw [ih (g :: gs) (ps ++ [k]) res hsz0 hgv.1 hgv.2 hps' hfresh0]
          rw [ih rest ps
            (res ++ (segEntries (g :: gs)).map
              (fun e => (joinSegs ((ps ++ [k]) ++ e.1), e.2)))
            (by omega) hndr hgr hps ?_]
          · rw [segEntries_cons_obj]
            rw [List.map_append, List.map_map]
            have hBeq : (segEntries (g :: gs)).map (fun e => (joinSegs ((ps ++ [k]) ++ e.1), e.2))
                = (segEntries (g :: gs)).map
                    ((fun e => (joinSegs (ps ++ e.1), e.2)) ∘ (fun e => (k :: e.1, e.2))) := by
              apply List.map_congr_left
              intro e0 _
              simp [List.append_assoc]
            rw [hBeq, List.append_assoc]
          · intro e he
            obtain ⟨hne, hoke⟩ := segEntries_good rest hgr e he
            obtain ⟨k', t', ht', hk'⟩ := segEntries_head rest e he
            simp only [keysOf, List.map_append, List.mem_append, not_or, List.map_map]
            constructor
            · have hmem : e ∈ segEntries ((k, .vObj (g :: gs)) :: rest) := by
                rw [segEntries_cons_obj]
                exact List.mem_append.mpr (Or.inr he)
              exact hfresh e hmem
            · intro hmem
              simp only [List.mem_map, Function.comp] at hmem
              obtain ⟨e0, he0, heq⟩ := hmem
              obtain ⟨hne0, hoke0⟩ := segEntries_good (g :: gs) hgv.2 e0 he0
              have hinj := joinSegs_inj (ps ++ (k :: e0.1)) (ps ++ e.1)
                (by simp) (by simp [hne])
                (by
                  intro u hu
                  rcases List.mem_append.mp hu with h1 | h1
                  · exact hps u h1
                  · simp only [List.mem_cons] at h1
                    rcases h1 with rfl | h1
                    · exact hk
                    · exact hoke0 u h1)
                (by
                  intro u hu
                  rcases List.mem_append.mp hu with h1 | h1
                  · exact hps u h1
                  · exact hoke u h1)
                (by
                  rw [← heq]
                  simp [List.append_assoc])
              have he1 : k :: e0.1 = e.1 := by
                have := congrArg (List.drop ps.length) hinj
                simpa [List.drop_left] using this
              rw [ht'] at he1
              simp only [List.cons.injEq] at he1
              rw [← he1.1] at hk'
              exact hkn hk'

theorem insertSegs_single (o : Obj) (a : String) (v : JSValue) :
    insertSegs o [a] v = objSet o a (parseValue v) := rfl

theorem insertSegs_cons2 (o : Obj) (a b : String) (t : List String) (v : JSValue) :
    insertSegs o (a :: b :: t) v
      = (match objGet o a with
         | some (.vObj fs) => objSet o a (.vObj (insertSegs fs (b :: t) v))
         | some (.vArr xs) => objSet o a (.vArr xs)
         | some (.vDate iso) => objSet o a (.vDate iso)
         | _ => objSet o a (.vObj (insertSegs [] (b :: t) v))) := rfl

theorem foldInsert_conv : ∀ (es : List (List String × JSValue)) (acc : Obj),
    (∀ e ∈ es, e.1 ≠ [] ∧ ∀ s ∈ e.1, keyOK s = true) →
    List.foldl (fun o e => insertSegs o (splitDots (joinSegs e.1)) e.2) acc es
      = List.foldl (fun o e => insertSegs o e.1 e.2) acc es := by
  intro es
  induction es with
  | nil => intro acc _; rfl
  | cons e es ih =>
    intro acc h
    rw [List.foldl_cons, List.foldl_cons]
    rw [splitDots_joinSegs e.1 (h e (by simp)).1 (h e (by simp)).2]
    exact ih _ (fun e' he' => h e' (by simp [he']))

theorem foldInsert_under : ∀ (es : List (List String × JSValue)) (k : String)
    (o fsPart : Obj),
    k ∉ keysOf o →
    (∀ e ∈ es, e.1 ≠ []) →
    List.foldl (fun o e => insertSegs o e.1 e.2) (o ++ [(k, .vObj fsPart)])
        (es.map (fun e => (k :: e.1, e.2)))
      = o ++ [(k, .vObj (List.foldl (fun fp e => insertSegs fp e.1 e.2) fsPart es))] := by
  intro es
  induction es with
  | nil => intro k o fsPart _ _; rfl
  | cons e es ih =>
    intro k o fsPart hk hne
    obtain ⟨t1, t2, ht⟩ : ∃ t1 t2, e.1 = t1 :: t2 := by
      rcases h1 : e.1 with - | ⟨t1, t2⟩
      · exact absurd h1 (hne e (by simp))
      · exact ⟨t1, t2, rfl⟩
    rw [List.map_cons, List.foldl_cons]
    simp only []
    rw [ht, insertSegs_cons2, objGet_append_last o k _ hk]
    simp only []
    rw [objSet_append_last o k _ _ hk, ← ht]
    rw [ih k o (insertSegs fsPart e.1 e.2) hk (fun e' he' => hne e' (by simp [he']))]
    rw [List.foldl_cons]

theorem foldInsert_leaf
    (n : Nat)
    (IH : ∀ (fs : List (String × JSValue)) (acc : Obj), sizeF fs ≤ n →
      nodupKeys fs = true → goodFields fs = true →
      (∀ q ∈ keysOf fs, q ∉ keysOf acc) →
      List.foldl (fun o e => insertSegs o e.1 e.2) acc (segEntries fs) = acc ++ fs)
    (k : String) (v : JSValue) (rest : List (String × JSValue)) (acc : Obj)
    (hsz : sizeF rest ≤ n)
    (hnd : nodupKeys ((k, v) :: rest) = true)
    (hgf : goodFields ((k, v) :: rest) = true)
    (hfr : ∀ q ∈ keysOf ((k, v) :: rest), q ∉ keysOf acc)
    (hseg : segEntries ((k, v) :: rest) = ([k], leafEnc v) :: segEntries rest)
    (hpv : parseValue (leafEnc v) = v) :
    List.foldl (fun o e => insertSegs o e.1 e.2) acc (segEntries ((k, v) :: rest))
      = acc ++ (k, v) :: rest := by
  rw [goodFields_cons, Bool.and_eq_true, Bool.and_eq_true] at hgf
  obtain ⟨⟨hk, hgv⟩, hgr⟩ := hgf
  obtain ⟨hkn, hndr⟩ := nodupKeys_cons_parts k v rest hnd
  have hfa : k ∉ keysOf acc := hfr k (by simp [keysOf])
  rw [hseg, List.foldl_cons]
  simp only []
  rw [insertSegs_single, hpv, objSet_fresh acc k v hfa]
  rw [IH rest (acc ++ [(k, v)]) hsz hndr hgr ?_]
  · simp
  · intro q hq
    simp only [keysOf, List.map_append, List.mem_append, List.map_cons, List.map_nil,
      List.mem_singleton, not_or]
    constructor
    · exact hfr q (by simp [keysOf] at hq ⊢; exact Or.inr hq)
    · intro heq
      subst heq
      exact hkn hq

theorem foldInsert_raw : ∀ n : Nat, ∀ (fs : List (String × JSValue)) (acc : Obj),
    sizeF fs ≤ n → nodupKeys fs = true → goodFields fs = true →
    (∀ q ∈ keysOf fs, q ∉ keysOf acc) →
    List.foldl (fun o e => insertSegs o e.1 e.2) acc (segEntries fs) = acc ++ fs := by
  intro n
  induction n with
  | zero =>
    intro fs acc hsz
    cases fs with
    | nil => intro _ _ _; rw [segEntries.eq_def]; simp
    | cons f rest =>
      obtain ⟨k, v⟩ := f
      rw [sizeF_cons] at hsz
      have := sizeV_pos v
      omega
  | succ n ih =>
    intro fs acc hsz hnd hgf hfr
    cases fs with
    | nil => rw [segEntries.eq_def]; simp
    | cons f rest =>
      obtain ⟨k, v⟩ := f
      rw [sizeF_cons] at hsz
      rcases v with - | - | b | num | s | iso | xs | fs0
      case vNull =>
        exact foldInsert_leaf n ih k .vNull rest acc (by omega) hnd hgf hfr (by rw [segEntries.eq_def]; rfl) rfl
      case vUndefined =>
        rw [goodFields_cons, Bool.and_eq_true, Bool.and_eq_true] at hgf
        have hbad := hgf.1.2
        rw [show goodVal .vUndefined = false from rfl] at hbad
        cases hbad
      case vDate =>
        rw [goodFields_cons, Bool.and_eq_true, Bool.and_eq_true] at hgf
        have hbad := hgf.1.2
        rw [show goodVal (.vDate iso) = false from rfl] at hbad
        cases hbad
      case vBool =>
        exact foldInsert_leaf n ih k (.vBool b) rest acc (by omega) hnd hgf hfr (by rw [segEntries.eq_def]; rfl) rfl
      case vNum =>
        exact foldInsert_leaf n ih k (.vNum num) rest acc (by omega) hnd hgf hfr (by rw [segEntries.eq_def]; rfl) rfl
      case vStr =>
        have hgv : goodVal (.vStr s) = true := by
          rw [goodFields_cons, Bool.and_eq_true, Bool.and_eq_true] at hgf
          exact hgf.1.2
        exact foldInsert_leaf n ih k (.vStr s) rest acc (by omega) hnd hgf hfr (by rw [segEntries.eq_def]; rfl)
          (parseValue_leafEnc (.vStr s) hgv (by intro g gs h; cases h))
      case vArr =>
        have hgv : goodVal (.vArr xs) = true := by
          rw [goodFields_cons, Bool.and_eq_true, Bool.and_eq_true] at hgf
          exact hgf.1.2
        exact foldInsert_leaf n ih k (.vArr xs) rest acc (by omega) hnd hgf hfr (by rw [segEntries.eq_def]; rfl)
          (parseValue_leafEnc (.vArr xs) hgv (by intro g gs h; cases h))
      case vObj =>
        cases fs0 with
        | nil =>
          exact foldInsert_leaf n ih k (.vObj []) rest acc (by omega) hnd hgf hfr (by rw [segEntries.eq_def]; rfl) rfl
        | cons g gs =>
          rw [goodFields_cons, Bool.and_eq_true, Bool.and_eq_true] at hgf
          obtain ⟨⟨hk, hgv⟩, hgr⟩ := hgf
          obtain ⟨hkn, hndr⟩ := nodupKeys_cons_parts k _ rest hnd
          rw [goodVal_obj, Bool.and_eq_true] at hgv
          have hfa : k ∉ keysOf acc := hfr k (by simp [keysOf])
          have hsz0 : sizeF (g :: gs) ≤ n := by
            rw [sizeV_obj] at hsz
            omega
          have hgood0 := segEntries_good (g :: gs) hgv.2
          rw [segEntries_cons_obj, List.foldl_append]
          rcases hse : segEntries (g :: gs) with - | ⟨e0, es⟩
          · exact absurd hse (segEntries_ne_nil (g :: gs) (by simp) hgv.2)
          · have he0 : e0.1 ≠ [] := (hgood0 e0 (by rw [hse]; simp)).1
            obtain ⟨t1, t2, ht⟩ : ∃ t1 t2, e0.1 = t1 :: t2 := by
              rcases h1 : e0.1 with - | ⟨t1, t2⟩
              · exact absurd h1 he0
              · exact ⟨t1, t2, rfl⟩
            rw [List.map_cons, List.foldl_cons]
            simp only []
            rw [ht, insertSegs_cons2, objGet_fresh_none acc k hfa]
            simp only []
            rw [objSet_fresh acc k _ hfa, ← ht]
            rw [foldInsert_under es k acc (insertSegs [] e0.1 e0.2) hfa
              (fun e' he' => (hgood0 e' (by rw [hse]; simp [he'])).1)]
            have hinner : List.foldl (fun fp e => insertSegs fp e.1 e.2)
                (insertSegs [] e0.1 e0.2) es = g :: gs := by
              have := ih (g :: gs) [] hsz0 hgv.1 hgv.2 (by simp [keysOf])
              rw [hse, List.foldl_cons] at this
              simpa using this
            rw [hinner]
            rw [ih rest (acc ++ [(k, JSValue.vObj (g :: gs))]) (by omega) hndr hgr ?_]
            · simp
            · intro q hq
              simp only [keysOf, List.map_append, List.mem_append, List.map_cons,
                List.map_nil, List.mem_singleton, not_or]
              constructor
              · exact hfr q (by simp [keysOf] at hq ⊢; exact Or.inr hq)
              · intro heq
                subst heq
                exact hkn hq

/-- Claim C1 (amended): the flatten/unflatten round trip holds on the domain
of plain objects whose leaves survive `parseValue` unchanged: no `undefined`
or `Date` leaves, duplicate-free, nonempty, dot-free keys at every object
node, string leaves that `parseValue` maps to themselves, and
JSON-representable arrays.  On that domain,
`unflatten (flatten v) = v`.  (The claim as stated over all
JSON-representable `undefined`-free values is refuted by
`c1_counterexample`: the string leaf `""` comes back as `null`.) -/
theorem c1_flatten_unflatten_roundtrip (fs : List (String × JSValue))
    (h : goodVal (.vObj fs) = true) :
    unflatten (flatten (.vObj fs) "" []) = fs := by
  rw [goodVal_obj, Bool.and_eq_true] at h
  cases fs with
  | nil => rfl
  | cons f fs' =>
    have hflat : flatten (.vObj (f :: fs')) "" [] = flattenFields (f :: fs') "" [] := rfl
    rw [hflat]
    rw [show ("" : String) = joinSegs [] from by decide]
    rw [flattenFields_acc (sizeF (f :: fs')) (f :: fs') [] [] (le_refl _) h.1 h.2
      (by intro s hs; cases hs) (by intro e he; simp [keysOf])]
    rw [List.nil_append]
    show List.foldl (fun o e => insertSegs o (splitDots e.1) e.2) []
      ((segEntries (f :: fs')).map (fun e => (joinSegs ([] ++ e.1), e.2))) = f :: fs'
    rw [List.foldl_map]
    simp only [List.nil_append]
    rw [foldInsert_conv (segEntries (f :: fs')) [] (segEntries_good (f :: fs') h.2)]
    rw [foldInsert_raw (sizeF (f :: fs')) (f :: fs') [] (le_refl _) h.1 h.2
      (by intro q hq; simp [keysOf] at hq ⊢)]
    rw [List.nil_append]

theorem c1_flatten_unflatten_roundtrip_witness :
    goodVal (.vObj [("a", .vObj [("b", .vNum 1)]), ("c", .vArr [.vNum 1, .vNum 2]),
      ("d", .vNull)]) = true ∧
    unflatten (flatten (.vObj [("a", .vObj [("b", .vNum 1)]), ("c", .vArr [.vNum 1, .vNum 2]),
      ("d", .vNull)]) "" [])
      = [("a", .vObj [("b", .vNum 1)]), ("c", .vArr [.vNum 1, .vNum 2]), ("d", .vNull)] :=
  ⟨by decide, c1_flatten_unflatten_roundtrip _ (by decide)⟩
